import Mathlib

/-!
Verification development for the stbl static-site builder.

Shallow embedding of the content pipeline of the repository:
  * publish validation          (src/libstbl/ContentManagerImpl.cpp, Validate)
  * series aggregation          (src/libstbl/ContentManagerImpl.cpp, AddSeries)
  * template macro expansion    (src/libstbl/ContentManagerImpl.cpp, ProcessTemplate)
  * header parsing / writing    (src/libstbl/HeaderParserImpl.cpp,
                                 src/libstbl/DirectoryScannerImpl.cpp)
  * directory scanning          (src/libstbl/DirectoryScannerImpl.cpp)
  * image variant cache         (src/libstbl/ImageMgrImpl.cpp)

Machine integers (`time_t`, `int`) are modelled as `Int`; C++ strings as
`List Char` / `String`.  Functions that the C++ writes with unbounded
loops are given a fuel argument so that every definition is structurally
recursive and evaluates by kernel reduction; fuel-irrelevance lemmas show
the fuel never matters once it dominates the input length.
-/

set_option linter.unnecessarySeqFocus false

namespace Stbl


/-! ## Node metadata (include/stbl/Node.h, struct Node::Metadata)

Only the fields the verified code paths read.  `time_t` values are `Int`
(seconds since the epoch), `part` is the C++ `int` with default 0. -/

structure Metadata where
  is_published : Bool := true
  published : Int := 0
  updated : Int := 0
  expires : Int := 0
  part : Int := 0
  deriving DecidableEq, Repr

/-- Node.h: `latestDate() const { return std::max(updated, published); }` -/
def Metadata.latestDate (m : Metadata) : Int := max m.updated m.published

/-! ## Publish validation (ContentManagerImpl.cpp, Validate, lines 958-984)

The C++ takes `now = time(NULL)` and the `preview_mode` option; each of
the three rejection branches returns `preview_mode ? true : false`. -/

def validate (preview : Bool) (now : Int) (m : Metadata) : Bool :=
  if !m.is_published then preview
  else if m.published > now then preview
  else if m.expires != 0 && m.expires < now then preview
  else true

/-! ## Series aggregation (ContentManagerImpl.cpp, AddSeries, lines 986-1050)

`std::sort` over the article vector with the comparator from the source
is modelled as an insertion sort with the same boolean comparator (for a
strict-weak-order comparator every comparison sort realizes the same
sorted order). -/

def orderedInsert (cmp : α → α → Bool) (x : α) : List α → List α
  | [] => [x]
  | y :: ys => if cmp x y then x :: y :: ys else y :: orderedInsert cmp x ys

def insertionSort (cmp : α → α → Bool) : List α → List α
  | [] => []
  | x :: xs => orderedInsert cmp x (insertionSort cmp xs)

/-- The sort lambda of AddSeries: compare by `part` when both are
non-zero, otherwise by `latestDate()`. -/
def articleCmp (a b : Metadata) : Bool :=
  if a.part != 0 && b.part != 0 then a.part < b.part
  else a.latestDate < b.latestDate

/-- Result of a successful AddSeries: the replaced article list and the
promoted series `updated` stamp (the other side effects of AddSeries -
tag collection, url assignment - are not modelled here). -/
structure SeriesResult where
  articles : List Metadata
  updated : Int
  deriving DecidableEq, Repr

instance : Inhabited Metadata := ⟨{}⟩

/-- AddSeries: validate the series node, filter the articles through
Validate, reject when none survives, sort with `articleCmp`, set the
series' `updated` from the *last* element of the sorted vector
(`publishable.back()`), and store the sorted vector. -/
def addSeries (preview : Bool) (now : Int) (seriesMeta : Metadata)
    (arts : List Metadata) : Option SeriesResult :=
  if !validate preview now seriesMeta then none
  else
    let publishable := arts.filter (validate preview now)
    if publishable.isEmpty then none
    else
      let sorted := insertionSort articleCmp publishable
      some { articles := sorted
             updated := ((sorted.getLast?).getD default).updated }

/-! ### C2: series filtering and ordering

The comparator mixes `part` and `latestDate` per pair, so with a mixture
of part-carrying and part-less articles the output need not be in
latest-activity order.  The three concrete articles below are all
publishable at `now = 1000`. -/

/-- Article with part 6, activity stamp 10. -/
def cexArtA : Metadata := { published := 1, updated := 10, part := 6 }

/-- Article with part 5, activity stamp 20. -/
def cexArtB : Metadata := { published := 1, updated := 20, part := 5 }

/-- Article without a part, activity stamp 5. -/
def cexArtC : Metadata := { published := 1, updated := 5 }

/-- Series metadata that passes Validate at `now = 1000`. -/
def cexSeries : Metadata := { published := 1 }

/-! ### C7: promotion of the series' `updated` stamp -/

/-- Article with part 1, updated 100 (the newest activity). -/
def cexArtD : Metadata := { published := 1, updated := 100, part := 1 }

/-- Article with part 2, updated 50. -/
def cexArtE : Metadata := { published := 1, updated := 50, part := 2 }

/-- Articles without parts for the C7 witness: activity stamps 7 and 3. -/
def cexArtF : Metadata := { published := 1, updated := 7 }

/-- Second part-less witness article. -/
def cexArtG : Metadata := { published := 1, updated := 3 }

/-! ## Numeric header fields (HeaderParserImpl.cpp, Assign, lines 115-127)

The `part` field is converted with `stoi` inside a try/catch (a warning
is logged and `hdr.part` keeps its default 0); the `sitemap-priority`
field is converted with a bare `stoi`, whose exception leaves Assign and
Parse and aborts the run.  An error escaping Assign is modelled as
`Except.error`. -/

/-- Model of `std::stoi`: skip leading whitespace, accept an optional
sign, then require at least one decimal digit; otherwise stoi throws
(`none`).  Trailing non-digit characters are ignored, as in stoi.
(Out-of-range values also throw in C++; both failure modes are `none`,
which is faithful for the inputs considered here.) -/
def digitsVal (cs : List Char) : Option Nat :=
  let ds := cs.takeWhile (·.isDigit)
  if ds.isEmpty then none
  else some (ds.foldl (fun acc c => acc * 10 + (c.toNat - 48)) 0)

def stoiOptL (cs : List Char) : Option Int :=
  match cs.dropWhile (·.isWhitespace) with
  | '-' :: rest => (digitsVal rest).map (fun n => -(n : Int))
  | '+' :: rest => (digitsVal rest).map (fun n => (n : Int))
  | rest => (digitsVal rest).map (fun n => (n : Int))

def stoiOpt (s : String) : Option Int := stoiOptL s.data

/-- `Get(key, headers)`: empty string when the key is absent. -/
def headerGet (key : String) (hs : List (String × String)) : String :=
  (List.lookup key hs).getD ""

/-- Assign's handling of `part`: `if (!part.empty()) try { hdr.part =
stoi(part); } catch (...) { LOG_WARN ... }` - on failure `hdr.part`
keeps its default 0 and Assign continues. -/
def assignPart (hs : List (String × String)) : Int :=
  let part := headerGet "part" hs
  if part = "" then 0
  else
    match stoiOpt part with
    | some v => v
    | none => 0

/-- Assign's handling of `sitemap-priority`: `if (!pri.empty())
hdr.sitemap_priority = stoi(pri);` with no handler - a failure
propagates out of Parse.  Default is -1 (Node.h). -/
def assignSitemapPriority (hs : List (String × String)) : Except Unit Int :=
  let pri := headerGet "sitemap-priority" hs
  if pri = "" then .ok (-1)
  else
    match stoiOpt pri with
    | some v => .ok v
    | none => .error ()

/-! ## Directory scanning (DirectoryScannerImpl.cpp, ScanDir lines
206-272, Recurse lines 274-290)

The filesystem is abstracted as a graph: directories carry a canonical
id (a symlink and its target are the same node) and `children d` lists
the subdirectory entries of `d` as (name, target id) pairs in iteration
order.  Regular files do not influence the recursion or the loop check
and are omitted.  The visit path of a child is the parent's visit path
extended by the entry name, exactly as `directory_iterator` yields it,
and `boost::filesystem::path` comparison is lexical, so the `find` in
Recurse is modelled as list-of-components equality.  The C++ recursion
is unbounded, so the model takes fuel; `outOfFuel` marks a run that was
still recursing when the fuel ran out (it corresponds to no C++
behaviour other than not having returned yet). -/

inductive ScanErr where
  | recursiveLoop
  | recursiveSeries
  | outOfFuel
  deriving DecidableEq, Repr

/-- The scanner's Context: the recursion chain (full visit paths pushed
by Recurse) and whether a series is being built.  The article/config
collections play no role in the traversal and are omitted. -/
structure ScanCtx where
  recursed : List (List String)
  isSeries : Bool
  deriving DecidableEq, Repr

/-- Recurse: copy the context, push the subdirectory's path, and throw
"Recursive loop in directory structure." when that path already occurs
in the incoming chain (`find` over `ctx.recursed`). -/
def recurseCtx (ctx : ScanCtx) (subdir : List String) :
    Except ScanErr ScanCtx :=
  if subdir ∈ ctx.recursed then .error .recursiveLoop
  else .ok { ctx with recursed := ctx.recursed ++ [subdir] }

/-- The directory_iterator loop of ScanDir over subdirectory entries;
`go` recurses into a subdirectory (ScanDir at the next level).  An
underscore-prefixed name is recursed transparently; any other name
starts a series (error when one is already being built, as in the C++
this is checked before Recurse).  The C++ underscore test is
`name.at(0) == '_'`, modelled on the first character. -/
def scanEntries (go : Nat → List String → ScanCtx → Except ScanErr Unit)
    (p : List String) (ctx : ScanCtx) :
    List (String × Nat) → Except ScanErr Unit
  | [] => .ok ()
  | (name, tgt) :: rest =>
    if name.data.head? == some '_' then
      match recurseCtx ctx (p ++ [name]) with
      | .error e => .error e
      | .ok sub =>
        match go tgt (p ++ [name]) sub with
        | .error e => .error e
        | .ok _ => scanEntries go p ctx rest
    else
      if ctx.isSeries then .error .recursiveSeries
      else
        match recurseCtx ctx (p ++ [name]) with
        | .error e => .error e
        | .ok sub =>
          match go tgt (p ++ [name]) { sub with isSeries := true } with
          | .error e => .error e
          | .ok _ => scanEntries go p ctx rest

/-- ScanDir with fuel bounding the recursion depth. -/
def scanDirF (children : Nat → List (String × Nat)) :
    Nat → Nat → List String → ScanCtx → Except ScanErr Unit
  | 0, _, _, _ => .error .outOfFuel
  | fuel + 1, d, p, ctx =>
    scanEntries (scanDirF children fuel) p ctx (children d)

/-- The failing filesystem of C6: the articles directory (id 0) holds a
single subdirectory entry `_l` that is a symlink back to the articles
directory itself. -/
def loopChildren : Nat → List (String × Nat) := fun _ => [("_l", 0)]

/-! ## Image variant cache (ImageMgrImpl.cpp, Prepare lines 34-92,
imageExists lines 13-23)

The variant destination `parent/_scale_<w>/<name>` differs from the
source path and from every other width's destination, so on-disk paths
are an inductive type; the `relative_path` strings of the returned
records are built exactly as in the source.  The pixel codec is an
external collaborator (boost::gil): `scale` abstracts the deterministic
size that `ScaleAndSave` produces from the source dimensions and a
target width, and a written file receives the current clock as mtime,
the clock advancing by one per write.  Prepare returns (image list,
filesystem after the call, number of ScaleAndSave invocations). -/

inductive IPath where
  | src
  | variant (w : Int)
  deriving DecidableEq, Repr

structure FileRec where
  mtime : Int
  dims : Int × Int
  deriving DecidableEq, Repr

instance : Inhabited FileRec := ⟨⟨0, (0, 0)⟩⟩

def Fsys := IPath → Option FileRec

structure ImageInfo where
  relative_path : String
  size : Int × Int
  deriving DecidableEq, Repr

/-- imageExists: the file is reusable when it exists and its write time
is at or after the source's. -/
def imageExists (fs : Fsys) (p : IPath) (origTime : Int) : Bool :=
  match fs p with
  | some r => r.mtime ≥ origTime
  | none => false

def updateFs (fs : Fsys) (p : IPath) (r : FileRec) : Fsys :=
  fun q => if q = p then some r else fs q

/-- The width loop of Prepare.  `lw` is `largest_width`; a width at or
above the source's native width emits the original once (when a smaller
width was not yet processed) and breaks; otherwise the variant is reused
when `imageExists` holds (its size read from the cached file) or
generated by `ScaleAndSave` (counted as one encode). -/
def prepareLoop (scale : Int × Int → Int → Int × Int) (name : String)
    (srcRec : FileRec) (clock : Int) (fs : Fsys) (lw : Int) :
    List Int → List ImageInfo × Fsys × Nat
  | [] => ([], fs, 0)
  | w :: ws =>
    if srcRec.dims.1 ≤ w then
      (if lw < srcRec.dims.1 then
        [{ relative_path := "images/" ++ name, size := srcRec.dims }]
       else [], fs, 0)
    else
      if imageExists fs (IPath.variant w) srcRec.mtime then
        ({ relative_path := "images/_scale_" ++ toString w ++ "/" ++ name,
           size := ((fs (IPath.variant w)).getD default).dims }
            :: (prepareLoop scale name srcRec clock fs w ws).1,
         (prepareLoop scale name srcRec clock fs w ws).2.1,
         (prepareLoop scale name srcRec clock fs w ws).2.2)
      else
        ({ relative_path := "images/_scale_" ++ toString w ++ "/" ++ name,
           size := scale srcRec.dims w }
            :: (prepareLoop scale name srcRec (clock + 1)
                 (updateFs fs (IPath.variant w)
                   { mtime := clock, dims := scale srcRec.dims w }) w ws).1,
         (prepareLoop scale name srcRec (clock + 1)
           (updateFs fs (IPath.variant w)
             { mtime := clock, dims := scale srcRec.dims w }) w ws).2.1,
         (prepareLoop scale name srcRec (clock + 1)
           (updateFs fs (IPath.variant w)
             { mtime := clock, dims := scale srcRec.dims w }) w ws).2.2 + 1)

/-- Prepare: missing source yields an empty list; otherwise run the
width loop (largest_width starts at 0) and sort the result by width,
largest first (`a.size.width > b.size.width`). -/
def prepare (scale : Int × Int → Int → Int × Int) (name : String)
    (widths : List Int) (clock : Int) (fs : Fsys) :
    List ImageInfo × Fsys × Nat :=
  match fs IPath.src with
  | none => ([], fs, 0)
  | some srcRec =>
    (insertionSort (fun a b => decide (b.size.1 < a.size.1))
      (prepareLoop scale name srcRec clock fs 0 widths).1,
     (prepareLoop scale name srcRec clock fs 0 widths).2.1,
     (prepareLoop scale name srcRec clock fs 0 widths).2.2)

/-! ## Template macro engine (ContentManagerImpl.cpp, ProcessTemplate,
lines 1621-1640)

The C++ iterates the `vars` map in ascending key order, calling
`boost::replace_all(tmplte, "{{" + key + "}}", value)` per key
(left-to-right, continuing after each replacement), then deletes every
remaining match of the ECMAScript regex `\{\{[\w\-]+\}\}` (leftmost
matches; `[\w-]+` is greedy and `}` is not a word character, so a match
is two braces, a maximal word run, two braces).  Both passes are
modelled on `List Char` with a fuel argument equal to the input length,
which each step strictly consumes. -/

/-- One character of the regex class `[\w\-]`: ASCII alphanumerics,
underscore or hyphen. -/
def isWordChar (c : Char) : Bool := c.isAlphanum || c = '_' || c = '-'

/-- The search string `"{{" + key + "}}"` built by ProcessTemplate. -/
def tokOf (k : List Char) : List Char := '{' :: '{' :: (k ++ ['}', '}'])

/-- boost::replace_all: find the leftmost occurrence of `pat`, replace
it by `rep`, continue searching after the inserted text. -/
def replaceAllF (pat rep : List Char) : Nat → List Char → List Char
  | _, [] => []
  | 0, s => s
  | f + 1, c :: cs =>
    if pat.isPrefixOf (c :: cs) then
      rep ++ replaceAllF pat rep f (List.drop pat.length (c :: cs))
    else c :: replaceAllF pat rep f cs

/-- replace_all at its canonical fuel (in ProcessTemplate `pat` is a
`tokOf`, hence never empty, and each step consumes at least one input
character, so this fuel always suffices). -/
def replaceAllC (pat rep s : List Char) : List Char :=
  replaceAllF pat rep s.length s

/-- The removal pass: `regex_replace` of `\{\{[\w\-]+\}\}` with the
empty string; on a failed match at some position the engine advances a
single character. -/
def stripF : Nat → List Char → List Char
  | _, [] => []
  | 0, s => s
  | f + 1, c :: cs =>
    if c = '{' ∧ cs.head? = some '{' ∧
        ¬ (cs.tail.takeWhile isWordChar).isEmpty = true ∧
        (cs.tail.dropWhile isWordChar).take 2 = ['}', '}'] then
      stripF f ((cs.tail.dropWhile isWordChar).drop 2)
    else c :: stripF f cs

def stripC (s : List Char) : List Char := stripF s.length s

/-- ProcessTemplate: expand every known macro (the list models the
std::map in its ascending-key iteration order), then strip the
remaining `{{word}}` tokens. -/
def processTemplateL (t : List Char)
    (vars : List (List Char × List Char)) : List Char :=
  stripC (vars.foldl (fun s kv => replaceAllC (tokOf kv.1) kv.2 s) t)

def processTemplate (t : String) (vars : List (String × String)) : String :=
  ⟨processTemplateL t.data (vars.map (fun kv => (kv.1.data, kv.2.data)))⟩

/-! ### Well-formed templates as chunk lists

A template is an alternation of literal text (no braces) and macro
tokens `{{name}}` with non-empty word names; variable values carry no
braces.  These are the shapes the repository's template files and
callers use; under them the two-pass engine coincides with a single
left-to-right spec pass (C3). -/

inductive Chunk where
  | text (s : List Char)
  | tok (n : List Char)
  deriving DecidableEq, Repr

def flattenChunks : List Chunk → List Char
  | [] => []
  | .text s :: r => s ++ flattenChunks r
  | .tok n :: r => tokOf n ++ flattenChunks r

def braceFree (s : List Char) : Prop := ∀ c ∈ s, c ≠ '{' ∧ c ≠ '}'

def wordStr (s : List Char) : Prop :=
  s ≠ [] ∧ ∀ c ∈ s, isWordChar c = true

def wfChunk : Chunk → Prop
  | .text s => braceFree s
  | .tok n => wordStr n

def wfTemplate (tpl : List Chunk) : Prop := ∀ ch ∈ tpl, wfChunk ch

instance (s : List Char) : Decidable (braceFree s) :=
  inferInstanceAs (Decidable (∀ c ∈ s, c ≠ '{' ∧ c ≠ '}'))

instance (s : List Char) : Decidable (wordStr s) :=
  inferInstanceAs (Decidable (s ≠ [] ∧ ∀ c ∈ s, isWordChar c = true))

instance : (ch : Chunk) → Decidable (wfChunk ch)
  | .text s => inferInstanceAs (Decidable (braceFree s))
  | .tok n => inferInstanceAs (Decidable (wordStr n))

instance (tpl : List Chunk) : Decidable (wfTemplate tpl) :=
  inferInstanceAs (Decidable (∀ ch ∈ tpl, wfChunk ch))

/-- The spec-side expansion: one pass over the template, emitting
literal text, a known macro's value, and nothing for an unknown macro. -/
def expandSpecChunks (vars : List (List Char × List Char)) :
    List Chunk → List Char
  | [] => []
  | .text s :: r => s ++ expandSpecChunks vars r
  | .tok n :: r => ((List.lookup n vars).getD []) ++ expandSpecChunks vars r

/-! ### The substitution pass on chunks -/

/-- Effect of one key's replace_all on one chunk of a well-formed
template: the key's tokens become literal value text. -/
def substChunk (k v : List Char) : Chunk → Chunk
  | .text s => .text s
  | .tok n => if n = k then .text v else .tok n

/-- The claim's concrete template as chunks. -/
def c3Tpl : List Chunk :=
  [.text "Hello ".data, .tok "name".data, .text ", you have ".data,
   .tok "n".data, .text " msgs and ".data, .tok "missing".data,
   .text ".".data]

/-- The claim's concrete variable map, in the ascending key order in
which `std::map` iterates ("n" < "name"). -/
def c3Vars : List (List Char × List Char) :=
  [("n".data, "3".data), ("name".data, "Bo".data)]

/-! ## Header writing and re-parsing (C5)

`UpdateRequiredHeaders` (DirectoryScannerImpl.cpp lines 109-204) writes
a fresh `---` block: uuid, title (when `have_title`), abstract, menu,
template, type, tags (comma-space separated), updated (when
`have_updated`), published, expires, banner - each via WriteIf, which
skips empty values; time values go through `ToStringAnsi`
(utility.cpp), `put_time(localtime(t), "%F %R")`.  `FetchHeader`
re-extracts the lines between the delimiters (a "delimiter" is any
getline result of at least two characters whose first byte is '-' -
the C++ tests `buffer[0]` three times).  `HeaderParserImpl::Parse`
removes `#`-comments, runs the spirit grammar
`*(field_key >> *lit(' ') >> ':' >> field_value >> lexeme["\n"])` with
a blank skipper, and `Assign` converts the map (GetTime parses
"%Y-%m-%d %H:%M" into a zero-initialized tm, then
`mktime / gmtime_r / mktime`).

libc's localtime/mktime/gmtime are external collaborators.  Per the
spec dates are normalized to UTC, so localtime = gmtime; the pair is
modelled as an abstract `Calendar` whose fields state the C contract
(mktime inverts gmtime; seconds decompose; fields lie in their printf
ranges on [0, maxT]).  Every theorem is parametric in the calendar and
the witness instantiates a concrete one. -/

structure Tm where
  year : Int
  month : Int
  day : Int
  hour : Int
  minute : Int
  sec : Int
  deriving DecidableEq, Repr

structure Calendar where
  epochToCivil : Int → Tm
  civilToEpoch : Tm → Int
  maxT : Int
  inv : ∀ t : Int, civilToEpoch (epochToCivil t) = t
  secLaw : ∀ t : Int, (epochToCivil t).sec = t % 60
  ranges : ∀ t : Int, 0 ≤ t → t ≤ maxT →
    1970 ≤ (epochToCivil t).year ∧ (epochToCivil t).year ≤ 9999 ∧
    1 ≤ (epochToCivil t).month ∧ (epochToCivil t).month ≤ 12 ∧
    1 ≤ (epochToCivil t).day ∧ (epochToCivil t).day ≤ 31 ∧
    0 ≤ (epochToCivil t).hour ∧ (epochToCivil t).hour ≤ 23 ∧
    0 ≤ (epochToCivil t).minute ∧ (epochToCivil t).minute ≤ 59

/-- Two-digit zero-padded field of strftime (%m, %d, %H, %M). -/
def pad2 (n : Int) : List Char :=
  [Nat.digitChar ((n.toNat / 10) % 10), Nat.digitChar (n.toNat % 10)]

/-- The year of %F; for 1970..9999 strftime prints exactly four
digits. -/
def pad4 (n : Int) : List Char :=
  [Nat.digitChar ((n.toNat / 1000) % 10),
   Nat.digitChar ((n.toNat / 100) % 10),
   Nat.digitChar ((n.toNat / 10) % 10),
   Nat.digitChar (n.toNat % 10)]

/-- `put_time(tm, "%F %R")`. -/
def fmtTm (tm : Tm) : List Char :=
  pad4 tm.year ++ '-' :: (pad2 tm.month ++ '-' :: (pad2 tm.day
    ++ ' ' :: (pad2 tm.hour ++ ':' :: pad2 tm.minute)))

/-- ToStringAnsi (utility.cpp lines 119-126): empty for time 0,
otherwise the formatted local time (= UTC here). -/
def toStringAnsi (C : Calendar) (t : Int) : List Char :=
  if t = 0 then [] else fmtTm (C.epochToCivil t)

def digitsToNat (ds : List Char) : Nat :=
  ds.foldl (fun a c => a * 10 + (c.toNat - 48)) 0

/-- The %Y field of get_time: a non-empty maximal digit run. -/
def readDigits (s : List Char) : Option (Nat × List Char) :=
  if (s.takeWhile (·.isDigit)).isEmpty then none
  else some (digitsToNat (s.takeWhile (·.isDigit)), s.dropWhile (·.isDigit))

/-- A width-2 numeric field of get_time, as produced by the
serializer's zero-padded output (two digits). -/
def read2 (s : List Char) : Option (Nat × List Char) :=
  match s with
  | a :: b :: r =>
    if a.isDigit ∧ b.isDigit then
      some (10 * (a.toNat - 48) + (b.toNat - 48), r)
    else none
  | _ => none

def expectChar (c : Char) (s : List Char) : Option (List Char) :=
  match s with
  | x :: r => if x = c then some r else none
  | [] => none

/-- `ss >> get_time(&t, "%Y-%m-%d %H:%M")` on a zero-initialized tm:
the five fields are read, seconds stay 0, trailing input is left in
the stream. -/
def parseAnsiTm (s : List Char) : Option Tm :=
  (readDigits s).bind fun yr =>
    (expectChar '-' yr.2).bind fun r2 =>
      (read2 r2).bind fun mor =>
        (expectChar '-' mor.2).bind fun r4 =>
          (read2 r4).bind fun dr =>
            (expectChar ' ' dr.2).bind fun r6 =>
              (read2 r6).bind fun hr =>
                (expectChar ':' hr.2).bind fun r8 =>
                  (read2 r8).map fun mir =>
                    { year := (yr.1 : Int), month := (mor.1 : Int),
                      day := (dr.1 : Int), hour := (hr.1 : Int),
                      minute := (mir.1 : Int), sec := 0 }

/-- HeaderParserImpl::GetTime (lines 227-246): empty value yields 0;
a parse failure throws; otherwise `mktime` on the parsed (local) tm,
then `gmtime_r`, then `mktime` again. -/
def getTime (C : Calendar) (value : List Char) : Except Unit Int :=
  if value.isEmpty then .ok 0
  else
    match parseAnsiTm value with
    | none => .error ()
    | some tm => .ok (C.civilToEpoch (C.epochToCivil (C.civilToEpoch tm)))

/-! ### The header writer -/

structure HeaderRec where
  uuid : List Char
  title : List Char
  abstract : List Char
  menu : List Char
  tmplte : List Char
  typ : List Char
  banner : List Char
  tags : List (List Char)
  updated : Int
  published : Int
  expires : Int
  have_title : Bool
  have_updated : Bool
  deriving DecidableEq, Repr

/-- The comma-space join of the tags WriteIf overload. -/
def joinTags : List (List Char) → List Char
  | [] => []
  | [t] => t
  | t :: ts => t ++ ',' :: ' ' :: joinTags ts

/-- The header fields in the order UpdateRequiredHeaders writes them;
an empty value means WriteIf skips the line (`have_title` /
`have_updated` gate title and updated; time fields format through
ToStringAnsi, which is empty exactly for time 0). -/
def headerFields (C : Calendar) (m : HeaderRec) :
    List (List Char × List Char) :=
  [("uuid".data, m.uuid),
   ("title".data, if m.have_title then m.title else []),
   ("abstract".data, m.abstract),
   ("menu".data, m.menu),
   ("template".data, m.tmplte),
   ("type".data, m.typ),
   ("tags".data, joinTags m.tags),
   ("updated".data, if m.have_updated then toStringAnsi C m.updated else []),
   ("published".data, toStringAnsi C m.published),
   ("expires".data, toStringAnsi C m.expires),
   ("banner".data, m.banner)]

def headerLines (C : Calendar) (m : HeaderRec) : List (List Char) :=
  ((headerFields C m).filter (fun kv => ¬ kv.2.isEmpty)).map
    (fun kv => kv.1 ++ ':' :: ' ' :: kv.2)

def joinNl : List (List Char) → List Char
  | [] => []
  | l :: r => l ++ '\n' :: joinNl r

/-- The text UpdateRequiredHeaders writes before the copied content:
delimiter, header lines, delimiter, each `endl,`-terminated. -/
def serializeHeader (C : Calendar) (m : HeaderRec) : List Char :=
  joinNl ("---".data :: headerLines C m ++ ["---".data])

/-! ### FetchHeader -/

def splitCharOn (sep : Char) : List Char → List (List Char)
  | [] => [[]]
  | c :: cs =>
    if c = sep then [] :: splitCharOn sep cs
    else
      match splitCharOn sep cs with
      | [] => [[c]]
      | h :: t => (c :: h) :: t

/-- The lines istream::getline yields: the chunks between newlines,
without a phantom empty line when the text ends in a newline. -/
def linesOf (s : List Char) : List (List Char) :=
  if (splitCharOn '\n' s).getLast? = some [] then
    (splitCharOn '\n' s).dropLast
  else splitCharOn '\n' s

/-- FetchHeader's delimiter test: gcount ≥ 3 (line plus newline, so at
least two characters) and `buffer[0] == '-'` (the C++ compares index 0
three times). -/
def isDelim (l : List Char) : Bool :=
  decide (2 ≤ l.length) && (l.head? == some '-')

/-- FetchHeader's loop: count delimiters; copy the lines seen while
exactly one delimiter has passed (each with a newline appended);
return at the second delimiter; end of stream without it is a parse
error. -/
def fetchLines (delims : Nat) : List (List Char) → Except Unit (List Char)
  | [] => .error ()
  | l :: rest =>
    if (if isDelim l then delims + 1 else delims) = 2 then .ok []
    else if (if isDelim l then delims + 1 else delims) = 1 ∧ isDelim l = false
    then (fetchLines (if isDelim l then delims + 1 else delims) rest).map
      (fun out => l ++ '\n' :: out)
    else fetchLines (if isDelim l then delims + 1 else delims) rest

def fetchHeader (s : List Char) : Except Unit (List Char) :=
  fetchLines 0 (linesOf s)

/-! ### The header grammar and Assign -/

/-- removeCommentLines: repeatedly erase from each '#' through the
following newline (or to the end). -/
def removeCommentsF : Nat → List Char → List Char
  | _, [] => []
  | 0, s => s
  | f + 1, c :: cs =>
    if c = '#' then removeCommentsF f ((cs.dropWhile (· ≠ '\n')).drop 1)
    else c :: removeCommentsF f cs

def removeComments (s : List Char) : List Char := removeCommentsF s.length s

/-- field_key's character class `char_("0-9a-zA-Z-")`. -/
def isKeyChar (c : Char) : Bool := c.isAlphanum || c = '-'

/-- The `qi::ascii::blank` skipper: space and tab. -/
def isBlankCh (c : Char) : Bool := c = ' ' || c = '\t'

/-- One grammar iteration on one line: optional leading blanks
(skipper), a non-empty key, optional blanks, ':', optional blanks
(pre-skip), then a non-empty value running to the end of line. -/
def parseHeaderLine (l : List Char) : Option (List Char × List Char) :=
  if ((l.dropWhile isBlankCh).takeWhile isKeyChar).isEmpty then none
  else
    match ((l.dropWhile isBlankCh).dropWhile isKeyChar).dropWhile isBlankCh with
    | ':' :: r2 =>
      if (r2.dropWhile isBlankCh).isEmpty then none
      else some ((l.dropWhile isBlankCh).takeWhile isKeyChar,
        r2.dropWhile isBlankCh)
    | _ => none

def parseHeaderLinesGo : List (List Char) →
    Option (List (List Char × List Char))
  | [] => some []
  | l :: rest =>
    match parseHeaderLine l with
    | none => none
    | some kv => (parseHeaderLinesGo rest).map (kv :: ·)

/-- The spirit grammar consumes key:value lines each terminated by a
newline and must consume the entire block (iter == end, else Parse
throws). -/
def parseHeaderBlock (s : List Char) :
    Option (List (List Char × List Char)) :=
  if (splitCharOn '\n' s).getLast? = some [] then
    parseHeaderLinesGo (splitCharOn '\n' s).dropLast
  else none

/-- The `space` skipper character class of parse_list. -/
def isSpaceCh (c : Char) : Bool :=
  c = ' ' || c = '\t' || c = '\n' || c = '\r' ||
    c = Char.ofNat 11 || c = Char.ofNat 12

def parseListGo : List (List Char) → Option (List (List Char))
  | [] => some []
  | chunk :: rest =>
    if (chunk.dropWhile isSpaceCh).isEmpty then none
    else (parseListGo rest).map (chunk.dropWhile isSpaceCh :: ·)

/-- parse_list: `token % ','` under a space skipper where token is the
lexeme `+~char_(",")` - chunks between commas, each stripped of
leading whitespace, each non-empty, the whole value consumed. -/
def parseListTokens (v : List Char) : Option (List (List Char)) :=
  parseListGo (splitCharOn ',' v)

def getH (key : List Char) (hs : List (List Char × List Char)) : List Char :=
  (List.lookup key hs).getD []

/-- The fields of Assign that C5 tracks. -/
structure ParsedHeader where
  uuid : List Char
  title : List Char
  tags : List (List Char)
  updated : Int
  is_published : Bool
  published : Int
  have_published : Bool
  expires : Int
  part : Int
  sitemap_priority : Int
  deriving DecidableEq, Repr

/-- A failed sub-parse throws out of Assign. -/
def exceptOfOption (o : Option α) : Except Unit α :=
  match o with
  | none => Except.error ()
  | some a => Except.ok a

/-- The tags branch of Assign: absent key means no tags; a present key
goes through GetWideList (parse_list), whose failure throws. -/
def tagsOf (hs : List (List Char × List Char)) :
    Except Unit (List (List Char)) :=
  ((List.lookup "tags".data hs).map
    (fun v => exceptOfOption (parseListTokens v))).getD (Except.ok [])

/-- The published branch of Assign: empty means published (the
default), the literal `false` / `no` marks a draft, anything else is a
date (GetTime can throw); the triple is (is_published, published,
have_published). -/
def pubTriple (C : Calendar) (pv : List Char) :
    Except Unit (Bool × Int × Bool) :=
  if pv.isEmpty then Except.ok (true, (0 : Int), false)
  else if pv = "false".data ∨ pv = "no".data then
    Except.ok (false, (0 : Int), false)
  else
    match getTime C pv with
    | Except.error e => Except.error e
    | Except.ok p => Except.ok (true, p, true)

/-- HeaderParserImpl::Assign for the tracked fields: uuid (fresh one
generated when absent), title, tags (GetWideList can throw), updated /
published / expires (GetTime can throw), the published false/no draft
marker, part (stoi failure absorbed) and sitemap-priority (stoi
failure thrown). -/
def assignHeader (C : Calendar) (fresh : List Char)
    (hs : List (List Char × List Char)) : Except Unit ParsedHeader := do
  let tags ← tagsOf hs
  let updated ← getTime C (getH "updated".data hs)
  let part : Int :=
    if (getH "part".data hs).isEmpty then 0
    else (stoiOptL (getH "part".data hs)).getD 0
  let pri ← (
    if (getH "sitemap-priority".data hs).isEmpty then Except.ok (-1)
    else
      match stoiOptL (getH "sitemap-priority".data hs) with
      | some v => Except.ok v
      | none => Except.error ())
  let uuid := if (getH "uuid".data hs).isEmpty then fresh
    else getH "uuid".data hs
  let (isPub, published, havePub) ← pubTriple C (getH "published".data hs)
  let expires ← getTime C (getH "expires".data hs)
  Except.ok { uuid := uuid, title := getH "title".data hs, tags := tags,
              updated := updated, is_published := isPub,
              published := published, have_published := havePub,
              expires := expires, part := part, sitemap_priority := pri }

/-- HeaderParserImpl::Parse: comment removal, the grammar, Assign. -/
def parseHeader (C : Calendar) (fresh : List Char) (block : List Char) :
    Except Unit ParsedHeader :=
  match parseHeaderBlock (removeComments block) with
  | none => .error ()
  | some hs => assignHeader C fresh hs

/-- Serialize with UpdateRequiredHeaders, re-extract with FetchHeader,
re-parse with HeaderParser::Parse. -/
def roundTrip (C : Calendar) (fresh : List Char) (m : HeaderRec) :
    Except Unit ParsedHeader :=
  match fetchHeader (serializeHeader C m) with
  | .error e => .error e
  | .ok block => parseHeader C fresh block

/-- The key/value map the grammar hands to Assign when run on the
serializer's output: the nonempty fields, each value stripped of the
leading blank the serializer's `": "` separator leaves before it. -/
def parsedMap (C : Calendar) (m : HeaderRec) :
    List (List Char × List Char) :=
  ((headerFields C m).filter (fun kv => ¬ kv.2.isEmpty)).map
    (fun kv => (kv.1, kv.2.dropWhile isBlankCh))

/-- A free-text header value the serializer emits verbatim on one
line: no newline (it would break the line structure), no `#` (comment
removal would eat the rest of the line) and no leading blank (the
skipper would strip it on the way back in). -/
def goodText (v : List Char) : Prop :=
  ('\n' ∉ v) ∧ ('#' ∉ v) ∧ v.dropWhile isBlankCh = v

instance (v : List Char) : Decidable (goodText v) :=
  inferInstanceAs
    (Decidable (('\n' ∉ v) ∧ ('#' ∉ v) ∧ v.dropWhile isBlankCh = v))

/-- A tag that survives the comma-space join and parse_list split:
non-empty, comma-free, newline/comment-safe and with no leading
whitespace. -/
def goodTag (t : List Char) : Prop :=
  t ≠ [] ∧ (',' ∉ t) ∧ ('\n' ∉ t) ∧ ('#' ∉ t) ∧ t.dropWhile isSpaceCh = t

instance (t : List Char) : Decidable (goodTag t) :=
  inferInstanceAs (Decidable (t ≠ [] ∧ (',' ∉ t) ∧ ('\n' ∉ t) ∧
    ('#' ∉ t) ∧ t.dropWhile isSpaceCh = t))

/-- A timestamp the minute-resolution `%F %R` format round-trips:
non-negative, in the calendar's printable range and minute-aligned
(the format drops seconds). -/
def goodDate (C : Calendar) (t : Int) : Prop :=
  0 ≤ t ∧ t ≤ C.maxT ∧ t % 60 = 0

instance (C : Calendar) (t : Int) : Decidable (goodDate C t) :=
  inferInstanceAs (Decidable (0 ≤ t ∧ t ≤ C.maxT ∧ t % 60 = 0))

/-- The records whose header the writer/parser pair round-trips: text
fields line-safe with no leading blanks, a non-empty uuid, tags
list-safe, the title/updated WriteIf gates consistent with their
values, and minute-aligned in-range dates. -/
def validHeaderRec (C : Calendar) (m : HeaderRec) : Prop :=
  m.uuid ≠ [] ∧ goodText m.uuid ∧ goodText m.title ∧
  (m.have_title = true ∨ m.title = []) ∧
  goodText m.abstract ∧ goodText m.menu ∧ goodText m.tmplte ∧
  goodText m.typ ∧ goodText m.banner ∧
  (∀ t ∈ m.tags, goodTag t) ∧
  (m.have_updated = true ∨ m.updated = 0) ∧
  goodDate C m.updated ∧ goodDate C m.published ∧ goodDate C m.expires

instance (C : Calendar) (m : HeaderRec) : Decidable (validHeaderRec C m) :=
  inferInstanceAs (Decidable (m.uuid ≠ [] ∧ goodText m.uuid ∧
    goodText m.title ∧ (m.have_title = true ∨ m.title = []) ∧
    goodText m.abstract ∧ goodText m.menu ∧ goodText m.tmplte ∧
    goodText m.typ ∧ goodText m.banner ∧
    (∀ t ∈ m.tags, goodTag t) ∧
    (m.have_updated = true ∨ m.updated = 0) ∧
    goodDate C m.updated ∧ goodDate C m.published ∧ goodDate C m.expires))

/-- A concrete Calendar for evaluation: 31-day months, 12-month years
from 1970, Euclidean division throughout; `maxT` is 30 such years. -/
def toyCal : Calendar where
  epochToCivil t :=
    { year := 1970 + t / 60 / 60 / 24 / 31 / 12,
      month := t / 60 / 60 / 24 / 31 % 12 + 1,
      day := t / 60 / 60 / 24 % 31 + 1,
      hour := t / 60 / 60 % 24,
      minute := t / 60 % 60,
      sec := t % 60 }
  civilToEpoch tm :=
    ((((tm.year - 1970) * 12 + (tm.month - 1)) * 31 + (tm.day - 1)) * 24
      + tm.hour) * 3600 + tm.minute * 60 + tm.sec
  maxT := 964224000
  inv := by
    intro t
    dsimp only
    omega
  secLaw := by
    intro t
    rfl
  ranges := by
    intro t h0 h1
    dsimp only
    omega

/-- A concrete header record for evaluating the round-trip. -/
def c5Rec : HeaderRec :=
  { uuid := "u1".data, title := "Title".data, abstract := [], menu := [],
    tmplte := [], typ := [], banner := [],
    tags := ["alpha".data, "beta".data],
    updated := 120, published := 60, expires := 0,
    have_title := true, have_updated := true }

/-! ### Generic facts about the comparator sort -/

theorem mem_orderedInsert (cmp : α → α → Bool) (x : α) (l : List α) (a : α) :
    a ∈ orderedInsert cmp x l ↔ a = x ∨ a ∈ l := by
  induction l with
  | nil => simp [orderedInsert]
  | cons y ys ih =>
    unfold orderedInsert
    by_cases h : cmp x y <;> simp [h, ih] <;> tauto

theorem orderedInsert_perm (cmp : α → α → Bool) (x : α) (l : List α) :
    (orderedInsert cmp x l).Perm (x :: l) := by
  induction l with
  | nil => simp [orderedInsert]
  | cons y ys ih =>
    unfold orderedInsert
    by_cases h : cmp x y
    · simp [h]
    · simp only [h, if_neg, Bool.false_eq_true, not_false_iff]
      exact List.Perm.trans (List.Perm.cons y ih) (List.Perm.swap x y ys)

theorem insertionSort_perm (cmp : α → α → Bool) (l : List α) :
    (insertionSort cmp l).Perm l := by
  induction l with
  | nil => simp [insertionSort]
  | cons x xs ih =>
    unfold insertionSort
    exact (orderedInsert_perm cmp x (insertionSort cmp xs)).trans
      (List.Perm.cons x ih)

theorem sorted_orderedInsert (le : α → α → Prop) (cmp : α → α → Bool)
    (htrans : ∀ a b c, le a b → le b c → le a c)
    (x : α) (l : List α)
    (hcmp : ∀ b ∈ l, (cmp x b = true → le x b) ∧ (cmp x b = false → le b x))
    (hl : List.Sorted le l) : List.Sorted le (orderedInsert cmp x l) := by
  induction l with
  | nil => simp [orderedInsert]
  | cons y ys ih =>
    unfold orderedInsert
    by_cases h : cmp x y
    · simp only [h, if_pos]
      refine List.Pairwise.cons ?_ hl
      intro z hz
      rcases List.mem_cons.mp hz with rfl | hz
      · exact (hcmp z (by simp)).1 h
      · exact htrans x y z ((hcmp y (by simp)).1 h)
          ((List.pairwise_cons.mp hl).1 z hz)
    · simp only [h, if_neg, Bool.false_eq_true, not_false_iff]
      refine List.Pairwise.cons ?_ ?_
      · intro z hz
        rcases (mem_orderedInsert cmp x ys z).mp hz with rfl | hz
        · exact (hcmp y (by simp)).2 (by simpa using h)
        · exact (List.pairwise_cons.mp hl).1 z hz
      · exact ih (fun b hb => hcmp b (by simp [hb]))
          (List.pairwise_cons.mp hl).2

theorem sorted_insertionSort (le : α → α → Prop) (cmp : α → α → Bool)
    (htrans : ∀ a b c, le a b → le b c → le a c) (l : List α)
    (hcmp : ∀ a ∈ l, ∀ b ∈ l,
      (cmp a b = true → le a b) ∧ (cmp a b = false → le b a)) :
    List.Sorted le (insertionSort cmp l) := by
  induction l with
  | nil => simp [insertionSort]
  | cons x xs ih =>
    unfold insertionSort
    refine sorted_orderedInsert le cmp htrans x (insertionSort cmp xs) ?_ ?_
    · intro b hb
      have hbx : b ∈ xs := ((insertionSort_perm cmp xs).mem_iff).mp hb
      exact hcmp x (by simp) b (by simp [hbx])
    · exact ih (fun a ha b hb => hcmp a (by simp [ha]) b (by simp [hb]))

theorem mem_of_getLast_some :
    ∀ (l : List α) (a : α), l.getLast? = some a → a ∈ l := by
  intro l
  induction l with
  | nil => intro a h; simp at h
  | cons x xs ih =>
    intro a h
    cases xs with
    | nil => simp at h; simp [h]
    | cons y ys =>
      rw [List.getLast?_cons_cons] at h
      exact List.mem_cons_of_mem x (ih a h)

theorem sorted_getLast_max (le : α → α → Prop) :
    ∀ (l : List α) (a : α), List.Sorted le l → l.getLast? = some a →
      ∀ b ∈ l, b = a ∨ le b a := by
  intro l
  induction l with
  | nil => intro a _ h; simp at h
  | cons x xs ih =>
    intro a hs hlast b hb
    cases xs with
    | nil =>
      simp at hlast hb
      subst hlast; subst hb; left; rfl
    | cons y ys =>
      rw [List.getLast?_cons_cons] at hlast
      rcases List.mem_cons.mp hb with rfl | hb
      · right
        have ha : a ∈ y :: ys := mem_of_getLast_some _ a hlast
        exact (List.pairwise_cons.mp hs).1 a ha
      · exact ih a (List.pairwise_cons.mp hs).2 hlast b hb

/-! ### C1: the publish-validity rule -/

/-- C1: Validate excludes a node exactly when `is_published` is false,
or `published` is later than now, or `expires` is non-zero and earlier
than now; with the preview flag set every node is accepted. -/
theorem validate_excludes_iff (m : Metadata) (now : Int) :
    (validate false now m = false ↔
      (m.is_published = false ∨ m.published > now ∨
        (m.expires ≠ 0 ∧ m.expires < now)))
    ∧ validate true now m = true := by
  unfold validate
  refine ⟨?_, ?_⟩ <;>
    rcases hp : m.is_published with _ | _ <;>
      by_cases h1 : m.published > now <;>
        by_cases h3 : m.expires ≠ 0 <;>
          by_cases h4 : m.expires < now <;>
            simp [hp, h1, h3, h4]

/-- C2 counterexample: with valid articles of parts 6, 5 and none, the
replaced article list comes out with activity stamps [5, 20, 10], which
is not ascending - the claim's "sorted by most-recent-activity timestamp
ascending otherwise" fails on this input. -/
theorem addSeries_mixed_parts_not_recency_sorted :
    (addSeries false 1000 cexSeries [cexArtA, cexArtB, cexArtC]).map
        (fun r => r.articles.map Metadata.latestDate) = some [5, 20, 10]
    ∧ ¬ List.Sorted (· ≤ ·) ([5, 20, 10] : List Int) := by
  constructor
  · rfl
  · decide

/-- C2 amended: for a series whose own metadata passes Validate, the
series is excluded exactly when no article passes Validate; otherwise
the stored list is a permutation of the valid articles, is in ascending
`part` order when every valid article declares a non-zero part, and is
in ascending latest-activity order when no valid article declares one
(with a mixture, each pair is ordered by part only when both declare
one, so no global activity order is guaranteed). -/
theorem addSeries_amended (preview : Bool) (now : Int) (sm : Metadata)
    (arts : List Metadata) (hs : validate preview now sm = true) :
    (addSeries preview now sm arts = none ↔
      arts.filter (validate preview now) = []) ∧
    ∀ r, addSeries preview now sm arts = some r →
      r.articles.Perm (arts.filter (validate preview now)) ∧
      ((∀ a ∈ arts.filter (validate preview now), a.part ≠ 0) →
        List.Sorted (fun a b => a.part ≤ b.part) r.articles) ∧
      ((∀ a ∈ arts.filter (validate preview now), a.part = 0) →
        List.Sorted (fun a b => a.latestDate ≤ b.latestDate) r.articles) := by
  unfold addSeries
  simp only [hs, Bool.not_true, Bool.false_eq_true, if_false]
  set pub := arts.filter (validate preview now) with hpub
  by_cases hemp : pub.isEmpty
  · simp only [hemp, if_pos]
    constructor
    · simp [List.isEmpty_iff.mp hemp]
    · intro r hr; cases hr
  · simp only [hemp, Bool.false_eq_true, if_false]
    constructor
    · simp only [List.isEmpty_iff] at hemp
      simp [hemp]
    · intro r hr
      injection hr with hr
      subst hr
      refine ⟨insertionSort_perm articleCmp pub, ?_, ?_⟩
      · intro hparts
        refine sorted_insertionSort (fun a b : Metadata => a.part ≤ b.part)
          articleCmp (fun a b c hab hbc => le_trans hab hbc) pub ?_
        intro a ha b hb
        have hpa := hparts a ha
        have hpb := hparts b hb
        unfold articleCmp
        have : (a.part != 0 && b.part != 0) = true := by
          simp [hpa, hpb]
        simp only [this, if_pos]
        constructor
        · intro h; exact le_of_lt (by simpa using h)
        · intro h; simp at h; omega
      · intro hparts
        refine sorted_insertionSort
          (fun a b : Metadata => a.latestDate ≤ b.latestDate)
          articleCmp (fun a b c hab hbc => le_trans hab hbc) pub ?_
        intro a ha b hb
        have hpa := hparts a ha
        unfold articleCmp
        have : (a.part != 0 && b.part != 0) = false := by
          simp [hpa]
        simp only [this, Bool.false_eq_true, if_false]
        constructor
        · intro h; exact le_of_lt (by simpa using h)
        · intro h; simp at h; omega

/-- C2 amended, witness at a concrete input (both articles carry parts
5 and 6, so the exclusion test and the part-sorted branch are
exercised). -/
theorem addSeries_amended_witness :
    validate false 1000 cexSeries = true ∧
    (addSeries false 1000 cexSeries [cexArtB, cexArtA] = none ↔
      [cexArtB, cexArtA].filter (validate false 1000) = []) :=
  ⟨by decide,
   (addSeries_amended false 1000 cexSeries [cexArtB, cexArtA] (by decide)).1⟩

/-- C7 counterexample: both articles declare parts, so the list is
sorted by part ([D, E]) and the series takes `updated = 50` from the
last element E - but the newest article (most recent activity, stamp
100) is D with `updated = 100`. -/
theorem addSeries_updated_not_newest :
    (addSeries false 1000 cexSeries [cexArtD, cexArtE]).map
        (fun r => r.updated) = some 50
    ∧ (∀ a ∈ [cexArtD, cexArtE], a.latestDate ≤ cexArtD.latestDate)
    ∧ cexArtD.updated = 100 ∧ (100 : Int) ≠ 50 := by
  refine ⟨rfl, ?_, rfl, by decide⟩
  decide

/-- C7 amended: the accepted series takes its `updated` stamp from the
last article of the sorted list; when no valid article declares a part
(so the sort is by recency) that article has maximal latest-activity
among the valid articles. -/
theorem addSeries_updated_amended (preview : Bool) (now : Int)
    (sm : Metadata) (arts : List Metadata) (r : SeriesResult)
    (h : addSeries preview now sm arts = some r) :
    (∃ a, r.articles.getLast? = some a ∧ r.updated = a.updated) ∧
    ((∀ a ∈ arts.filter (validate preview now), a.part = 0) →
      ∃ a ∈ arts.filter (validate preview now),
        r.updated = a.updated ∧
        ∀ b ∈ arts.filter (validate preview now),
          b.latestDate ≤ a.latestDate) := by
  unfold addSeries at h
  by_cases hs : validate preview now sm
  · simp only [hs, Bool.not_true, Bool.false_eq_true, if_false] at h
    set pub := arts.filter (validate preview now) with hpub
    by_cases hemp : pub.isEmpty
    · simp [hemp] at h
    · simp only [hemp, Bool.false_eq_true, if_false, Option.some.injEq] at h
      subst h
      have hne : insertionSort articleCmp pub ≠ [] := by
        intro hnil
        have hperm := insertionSort_perm articleCmp pub
        rw [hnil] at hperm
        have hpn : pub = [] := hperm.symm.eq_nil
        rw [hpn] at hemp
        simp at hemp
      obtain ⟨last, hlast⟩ :
          ∃ a, (insertionSort articleCmp pub).getLast? = some a := by
        cases hg : (insertionSort articleCmp pub).getLast? with
        | none => exact absurd (List.getLast?_eq_none_iff.mp hg) hne
        | some a => exact ⟨a, rfl⟩
      constructor
      · exact ⟨last, hlast, by simp [hlast]⟩
      · intro hparts
        have hsorted : List.Sorted
            (fun a b : Metadata => a.latestDate ≤ b.latestDate)
            (insertionSort articleCmp pub) := by
          refine sorted_insertionSort
            (fun a b : Metadata => a.latestDate ≤ b.latestDate)
            articleCmp (fun a b c hab hbc => le_trans hab hbc) pub ?_
          intro a ha b hb
          have hpa := hparts a ha
          unfold articleCmp
          have : (a.part != 0 && b.part != 0) = false := by simp [hpa]
          simp only [this, Bool.false_eq_true, if_false]
          constructor
          · intro hx; exact le_of_lt (by simpa using hx)
          · intro hx; simp at hx; omega
        refine ⟨last, ?_, by simp [hlast], ?_⟩
        · exact ((insertionSort_perm articleCmp pub).mem_iff).mp
            (mem_of_getLast_some _ last hlast)
        · intro b hb
          have hbs : b ∈ insertionSort articleCmp pub :=
            ((insertionSort_perm articleCmp pub).mem_iff).mpr hb
          rcases sorted_getLast_max _ _ last hsorted hlast b hbs with rfl | hle
          · exact le_refl _
          · exact hle
  · simp [hs] at h

/-- C7 amended, witness: a concrete part-less series, sorted by recency
to [G, F] with promoted stamp 7. -/
theorem addSeries_updated_amended_witness :
    addSeries false 1000 cexSeries [cexArtF, cexArtG] =
      some { articles := [cexArtG, cexArtF], updated := 7 } ∧
    (∃ a, ({ articles := [cexArtG, cexArtF], updated := 7 }
        : SeriesResult).articles.getLast? = some a ∧
      (7 : Int) = a.updated) :=
  ⟨by rfl,
   (addSeries_updated_amended false 1000 cexSeries [cexArtF, cexArtG]
      { articles := [cexArtG, cexArtF], updated := 7 } (by rfl)).1⟩

/-- C10: for the same non-empty non-integer value, the `part` field is
absorbed (warning, part stays 0, Assign succeeds) while the
`sitemap-priority` field makes the parse throw. -/
theorem numeric_header_asymmetry (hs : List (String × String)) (s : String)
    (hpart : headerGet "part" hs = s)
    (hpri : headerGet "sitemap-priority" hs = s)
    (hne : s ≠ "") (hbad : stoiOpt s = none) :
    assignPart hs = 0 ∧ assignSitemapPriority hs = .error () := by
  unfold assignPart assignSitemapPriority
  rw [hpart, hpri]
  simp [hne, hbad]

/-- C10 witness at the concrete header value "abc". -/
theorem numeric_header_asymmetry_witness :
    (headerGet "part" [("part", "abc"), ("sitemap-priority", "abc")] = "abc"
      ∧ stoiOpt "abc" = none) ∧
    (assignPart [("part", "abc"), ("sitemap-priority", "abc")] = 0 ∧
      assignSitemapPriority [("part", "abc"), ("sitemap-priority", "abc")]
        = .error ()) :=
  ⟨⟨by decide, by decide⟩,
   numeric_header_asymmetry [("part", "abc"), ("sitemap-priority", "abc")]
     "abc" (by decide) (by decide) (by decide) (by decide)⟩

theorem scanLoop_aux (fuel : Nat) :
    ∀ (p : List String) (ctx : ScanCtx),
      (∀ q ∈ ctx.recursed, q.length ≤ p.length) →
      scanDirF loopChildren fuel 0 p ctx = .error .outOfFuel := by
  induction fuel with
  | zero => intro p ctx _; rfl
  | succ n ih =>
    intro p ctx h
    have hmem : (p ++ ["_l"]) ∉ ctx.recursed := by
      intro hmem
      have := h _ hmem
      simp at this
    have hrec : scanDirF loopChildren n 0 (p ++ ["_l"])
        { recursed := ctx.recursed ++ [p ++ ["_l"]],
          isSeries := ctx.isSeries } = .error .outOfFuel := by
      refine ih (p ++ ["_l"]) _ ?_
      intro q hq
      rcases List.mem_append.mp hq with hq | hq
      · have := h q hq
        simp only [List.length_append, List.length_cons, List.length_nil]
        omega
      · simp only [List.mem_singleton] at hq
        simp [hq]
    show scanEntries (scanDirF loopChildren n) p ctx [("_l", 0)]
        = .error .outOfFuel
    unfold scanEntries
    rw [if_pos (by rfl : (("_l" : String).data.head? == some '_') = true)]
    unfold recurseCtx
    rw [if_neg hmem]
    simp only [hrec]

/-- C6: on a tree where a subdirectory is a symlink back to an ancestor,
every fuel-bounded approximation of ScanDir is still recursing when the
fuel runs out; in particular no approximation throws the recursive-loop
error.  The chain carried in Context stores the lexical visit paths,
which strictly grow at each level, so the revisited directory is never
detected and the scan does not terminate. -/
theorem scanDir_symlink_loop_diverges :
    ∀ fuel : Nat,
      scanDirF loopChildren fuel 0 ["articles"]
        { recursed := [], isSeries := false } = .error .outOfFuel :=
  fun fuel => scanLoop_aux fuel ["articles"] _ (by simp)

theorem prepareLoop_cons (scale : Int × Int → Int → Int × Int)
    (name : String) (srcRec : FileRec) (clock : Int) (fs : Fsys)
    (lw w : Int) (ws : List Int) :
    prepareLoop scale name srcRec clock fs lw (w :: ws)
      = if srcRec.dims.1 ≤ w then
          (if lw < srcRec.dims.1 then
            [{ relative_path := "images/" ++ name, size := srcRec.dims }]
           else [], fs, 0)
        else if imageExists fs (IPath.variant w) srcRec.mtime then
          ({ relative_path := "images/_scale_" ++ toString w ++ "/" ++ name,
             size := ((fs (IPath.variant w)).getD default).dims }
              :: (prepareLoop scale name srcRec clock fs w ws).1,
           (prepareLoop scale name srcRec clock fs w ws).2.1,
           (prepareLoop scale name srcRec clock fs w ws).2.2)
        else
          ({ relative_path := "images/_scale_" ++ toString w ++ "/" ++ name,
             size := scale srcRec.dims w }
              :: (prepareLoop scale name srcRec (clock + 1)
                   (updateFs fs (IPath.variant w)
                     { mtime := clock, dims := scale srcRec.dims w }) w ws).1,
           (prepareLoop scale name srcRec (clock + 1)
             (updateFs fs (IPath.variant w)
               { mtime := clock, dims := scale srcRec.dims w }) w ws).2.1,
           (prepareLoop scale name srcRec (clock + 1)
             (updateFs fs (IPath.variant w)
               { mtime := clock, dims := scale srcRec.dims w }) w ws).2.2 + 1)
    := rfl

theorem prepareLoop_preserves_good (scale : Int × Int → Int → Int × Int)
    (name : String) (srcRec : FileRec) :
    ∀ (ws : List Int) (lw clock : Int) (fs : Fsys) (p : IPath) (r : FileRec),
      fs p = some r → r.mtime ≥ srcRec.mtime →
      (prepareLoop scale name srcRec clock fs lw ws).2.1 p = some r := by
  intro ws
  induction ws with
  | nil => intro lw clock fs p r hp _; exact hp
  | cons w ws ih =>
    intro lw clock fs p r hp hr
    rw [prepareLoop_cons]
    by_cases hbig : srcRec.dims.1 ≤ w
    · rw [if_pos hbig]
      exact hp
    · rw [if_neg hbig]
      by_cases hex : imageExists fs (IPath.variant w) srcRec.mtime = true
      · rw [if_pos hex]
        exact ih w clock fs p r hp hr
      · rw [if_neg hex]
        refine ih w (clock + 1) _ p r ?_ hr
        unfold updateFs
        by_cases hpd : p = IPath.variant w
        · subst hpd
          unfold imageExists at hex
          rw [hp] at hex
          simp [hr] at hex
        · simp [hpd, hp]

theorem prepareLoop_idem (scale : Int × Int → Int → Int × Int)
    (name : String) (srcRec : FileRec) :
    ∀ (ws : List Int) (lw clock1 clock2 : Int) (fs : Fsys),
      clock1 ≥ srcRec.mtime →
      prepareLoop scale name srcRec clock2
          (prepareLoop scale name srcRec clock1 fs lw ws).2.1 lw ws
        = ((prepareLoop scale name srcRec clock1 fs lw ws).1,
           (prepareLoop scale name srcRec clock1 fs lw ws).2.1, 0) := by
  intro ws
  induction ws with
  | nil => intro lw clock1 clock2 fs _; rfl
  | cons w ws ih =>
    intro lw clock1 clock2 fs hclk
    by_cases hbig : srcRec.dims.1 ≤ w
    · have e1 : prepareLoop scale name srcRec clock1 fs lw (w :: ws)
          = (if lw < srcRec.dims.1 then
              [{ relative_path := "images/" ++ name, size := srcRec.dims }]
             else [], fs, 0) := by
        rw [prepareLoop_cons, if_pos hbig]
      rw [e1, prepareLoop_cons, if_pos hbig]
    · by_cases hex : imageExists fs (IPath.variant w) srcRec.mtime = true
      · obtain ⟨r, hfd, hgood⟩ :
            ∃ r, fs (IPath.variant w) = some r ∧ r.mtime ≥ srcRec.mtime := by
          unfold imageExists at hex
          cases hfd : fs (IPath.variant w) with
          | none => rw [hfd] at hex; simp at hex
          | some r =>
            rw [hfd] at hex
            exact ⟨r, rfl, by simpa using hex⟩
        have hkeep := prepareLoop_preserves_good scale name srcRec ws w
          clock1 fs (IPath.variant w) r hfd hgood
        have hex2 : imageExists
            (prepareLoop scale name srcRec clock1 fs w ws).2.1
            (IPath.variant w) srcRec.mtime = true := by
          unfold imageExists
          rw [hkeep]
          simpa using hgood
        have e1 : prepareLoop scale name srcRec clock1 fs lw (w :: ws)
            = ({ relative_path :=
                   "images/_scale_" ++ toString w ++ "/" ++ name,
                 size := r.dims }
                :: (prepareLoop scale name srcRec clock1 fs w ws).1,
               (prepareLoop scale name srcRec clock1 fs w ws).2.1,
               (prepareLoop scale name srcRec clock1 fs w ws).2.2) := by
          rw [prepareLoop_cons, if_neg hbig, if_pos hex, hfd]
          rfl
        rw [e1, prepareLoop_cons, if_neg hbig, if_pos hex2, hkeep,
          ih w clock1 clock2 fs hclk]
        rfl
      · have hnew : (updateFs fs (IPath.variant w)
            { mtime := clock1, dims := scale srcRec.dims w })
              (IPath.variant w)
            = some { mtime := clock1, dims := scale srcRec.dims w } := by
          unfold updateFs
          simp
        have hkeep := prepareLoop_preserves_good scale name srcRec ws w
          (clock1 + 1)
          (updateFs fs (IPath.variant w)
            { mtime := clock1, dims := scale srcRec.dims w })
          (IPath.variant w)
          { mtime := clock1, dims := scale srcRec.dims w } hnew hclk
        have hex2 : imageExists
            (prepareLoop scale name srcRec (clock1 + 1)
              (updateFs fs (IPath.variant w)
                { mtime := clock1, dims := scale srcRec.dims w }) w ws).2.1
            (IPath.variant w) srcRec.mtime = true := by
          unfold imageExists
          rw [hkeep]
          simpa using hclk
        have e1 : prepareLoop scale name srcRec clock1 fs lw (w :: ws)
            = ({ relative_path :=
                   "images/_scale_" ++ toString w ++ "/" ++ name,
                 size := scale srcRec.dims w }
                :: (prepareLoop scale name srcRec (clock1 + 1)
                     (updateFs fs (IPath.variant w)
                       { mtime := clock1, dims := scale srcRec.dims w })
                     w ws).1,
               (prepareLoop scale name srcRec (clock1 + 1)
                 (updateFs fs (IPath.variant w)
                   { mtime := clock1, dims := scale srcRec.dims w })
                 w ws).2.1,
               (prepareLoop scale name srcRec (clock1 + 1)
                 (updateFs fs (IPath.variant w)
                   { mtime := clock1, dims := scale srcRec.dims w })
                 w ws).2.2 + 1) := by
          rw [prepareLoop_cons, if_neg hbig, if_neg hex]
        rw [e1, prepareLoop_cons, if_neg hbig, if_pos hex2, hkeep,
          ih w (clock1 + 1) clock2 _ (by omega)]
        rfl

theorem prepare_eq_of_src (scale : Int × Int → Int → Int × Int)
    (name : String) (widths : List Int) (clock : Int) (fs : Fsys)
    (r : FileRec) (h : fs IPath.src = some r) :
    prepare scale name widths clock fs
      = (insertionSort (fun a b => decide (b.size.1 < a.size.1))
           (prepareLoop scale name r clock fs 0 widths).1,
         (prepareLoop scale name r clock fs 0 widths).2.1,
         (prepareLoop scale name r clock fs 0 widths).2.2) := by
  unfold prepare
  rw [h]

/-- C8: a second Prepare over an unchanged source returns the same
image records (same relative path, width and height, in the same
largest-width-first order) and performs no ScaleAndSave call, because
every variant produced by the first call sits in the cache with a write
time at or after the source's.  The clock hypothesis says the first
call happens no earlier than the source file's write time. -/
theorem prepare_idempotent (scale : Int × Int → Int → Int × Int)
    (name : String) (widths : List Int) (clock1 clock2 : Int) (fs : Fsys)
    (srcRec : FileRec) (hsrc : fs IPath.src = some srcRec)
    (hclk : clock1 ≥ srcRec.mtime) :
    (prepare scale name widths clock2
        (prepare scale name widths clock1 fs).2.1).1
      = (prepare scale name widths clock1 fs).1 ∧
    (prepare scale name widths clock2
        (prepare scale name widths clock1 fs).2.1).2.2 = 0 ∧
    List.Sorted (fun a b : ImageInfo => a.size.1 ≥ b.size.1)
      (prepare scale name widths clock1 fs).1 := by
  have hsrc2 : (prepareLoop scale name srcRec clock1 fs 0 widths).2.1
      IPath.src = some srcRec :=
    prepareLoop_preserves_good scale name srcRec widths 0 clock1 fs
      IPath.src srcRec hsrc (le_refl _)
  have e1 := prepare_eq_of_src scale name widths clock1 fs srcRec hsrc
  have hloop := prepareLoop_idem scale name srcRec widths 0 clock1 clock2
    fs hclk
  have e2 := prepare_eq_of_src scale name widths clock2
    (prepareLoop scale name srcRec clock1 fs 0 widths).2.1 srcRec hsrc2
  refine ⟨?_, ?_, ?_⟩
  · rw [e1]
    simp only
    rw [e2, hloop]
  · rw [e1]
    simp only
    rw [e2, hloop]
  · rw [e1]
    simp only
    refine sorted_insertionSort _ _ ?_ _ ?_
    · intro a b c hab hbc; omega
    · intro a _ b _
      constructor
      · intro hx
        have := of_decide_eq_true hx
        omega
      · intro hx
        have := of_decide_eq_false hx
        omega

/-- C8 witness: source 200x100 with mtime 7; widths 100 and 50 produce
two scaled variants on the first call and pure cache hits on the
second. -/
theorem prepare_idempotent_witness :
    ((fun p => if p = IPath.src then some ⟨7, (200, 100)⟩ else none : Fsys)
        IPath.src = some ⟨7, (200, 100)⟩ ∧
      (7 : Int) ≥ (⟨7, (200, 100)⟩ : FileRec).mtime) ∧
    (prepare (fun d w => (w, d.2 * w / d.1)) "pic.jpg" [100, 50] 9
        (prepare (fun d w => (w, d.2 * w / d.1)) "pic.jpg" [100, 50] 7
          (fun p => if p = IPath.src then some ⟨7, (200, 100)⟩
                    else none)).2.1).1
      = (prepare (fun d w => (w, d.2 * w / d.1)) "pic.jpg" [100, 50] 7
          (fun p => if p = IPath.src then some ⟨7, (200, 100)⟩
                    else none)).1 :=
  ⟨⟨rfl, by decide⟩,
   (prepare_idempotent (fun d w => (w, d.2 * w / d.1)) "pic.jpg" [100, 50]
      7 9 _ ⟨7, (200, 100)⟩ rfl (by decide)).1⟩

/-! ### Stepping lemmas for replace_all -/

theorem wordChar_ne_braces {c : Char} (h : isWordChar c = true) :
    c ≠ '{' ∧ c ≠ '}' := by
  constructor <;> rintro rfl <;> simp [isWordChar, Char.isAlphanum,
    Char.isAlpha, Char.isUpper, Char.isLower, Char.isDigit] at h

theorem replaceAllF_nil (pat rep : List Char) (f : Nat) :
    replaceAllF pat rep f [] = [] := by
  cases f <;> rfl

theorem replaceAllF_succ (pat rep : List Char) (f : Nat) (c : Char)
    (cs : List Char) :
    replaceAllF pat rep (f + 1) (c :: cs)
      = if pat.isPrefixOf (c :: cs) then
          rep ++ replaceAllF pat rep f (List.drop pat.length (c :: cs))
        else c :: replaceAllF pat rep f cs := rfl

theorem replaceAllF_fuel (pat rep : List Char) (hp : pat ≠ []) :
    ∀ (f1 : Nat) (s : List Char) (f2 : Nat),
      s.length ≤ f1 → s.length ≤ f2 →
      replaceAllF pat rep f1 s = replaceAllF pat rep f2 s := by
  intro f1
  induction f1 with
  | zero =>
    intro s f2 h1 _
    have : s = [] := List.eq_nil_of_length_eq_zero (by omega)
    subst this
    rw [replaceAllF_nil, replaceAllF_nil]
  | succ f ih =>
    intro s f2 h1 h2
    cases s with
    | nil => rw [replaceAllF_nil, replaceAllF_nil]
    | cons c cs =>
      cases f2 with
      | zero => simp at h2
      | succ g =>
        rw [replaceAllF_succ, replaceAllF_succ]
        have hplen : 1 ≤ pat.length := by
          cases pat with
          | nil => exact absurd rfl hp
          | cons _ _ => simp
        by_cases hpre : pat.isPrefixOf (c :: cs)
        · rw [if_pos hpre, if_pos hpre]
          congr 1
          refine ih _ g ?_ ?_ <;>
            · rw [List.length_drop]
              simp only [List.length_cons] at h1 h2 ⊢
              omega
        · rw [if_neg hpre, if_neg hpre]
          congr 1
          refine ih cs g ?_ ?_ <;>
            · simp only [List.length_cons] at h1 h2
              omega

theorem replaceAllF_text (pat rep : List Char) (p' : List Char)
    (hp : pat = '{' :: p') :
    ∀ (s : List Char), (∀ c ∈ s, c ≠ '{') →
      ∀ (g : Nat) (rest : List Char),
        replaceAllF pat rep (s.length + g) (s ++ rest)
          = s ++ replaceAllF pat rep g rest := by
  intro s
  induction s with
  | nil => intro _ g rest; simp
  | cons c cs ih =>
    intro hs g rest
    have hc : c ≠ '{' := hs c (by simp)
    have hlen : (c :: cs).length + g = (cs.length + g) + 1 := by
      simp only [List.length_cons]; omega
    rw [List.cons_append, hlen, replaceAllF_succ]
    have hpre : pat.isPrefixOf (c :: (cs ++ rest)) = false := by
      rw [hp]
      simp only [List.isPrefixOf, Bool.and_eq_false_iff]
      left
      exact beq_eq_false_iff_ne.mpr (Ne.symm hc)
    rw [if_neg (by simp [hpre])]
    rw [ih (fun x hx => hs x (List.mem_cons_of_mem c hx)) g rest]
    rfl

theorem bool_neg_of_eq_false {b : Bool} (h : b = false) : ¬ (b = true) := by
  rw [h]; simp

theorem replaceAllC_nil (pat rep : List Char) : replaceAllC pat rep [] = [] :=
  rfl

theorem replaceAllC_text (pat rep p' : List Char) (hp : pat = '{' :: p')
    (s : List Char) (hs : ∀ c ∈ s, c ≠ '{') (rest : List Char) :
    replaceAllC pat rep (s ++ rest) = s ++ replaceAllC pat rep rest := by
  unfold replaceAllC
  rw [List.length_append]
  exact replaceAllF_text pat rep p' hp s hs rest.length rest

theorem replaceAllC_head (pat rep : List Char) (hp : pat ≠ [])
    (rest : List Char) :
    replaceAllC pat rep (pat ++ rest) = rep ++ replaceAllC pat rep rest := by
  unfold replaceAllC
  cases pat with
  | nil => exact absurd rfl hp
  | cons p ps =>
    rw [List.cons_append, List.length_cons, replaceAllF_succ]
    have hpre : (p :: ps).isPrefixOf (p :: (ps ++ rest)) = true := by
      rw [List.isPrefixOf_iff_prefix]
      rw [← List.cons_append]
      exact List.prefix_append _ _
    rw [if_pos hpre]
    congr 1
    have hdrop : List.drop (p :: ps).length (p :: (ps ++ rest)) = rest := by
      rw [List.length_cons, List.drop_succ_cons, List.drop_left]
    rw [hdrop]
    exact replaceAllF_fuel (p :: ps) rep hp _ rest _ (by simp) (le_refl _)

theorem isPrefixOf_tok_ne (k : List Char) :
    ∀ (n rest : List Char), (∀ c ∈ k, isWordChar c = true) →
      (∀ c ∈ n, isWordChar c = true) → k ≠ n →
      (k ++ ['}', '}']).isPrefixOf (n ++ '}' :: '}' :: rest) = false := by
  induction k with
  | nil =>
    intro n rest _ hn hne
    cases n with
    | nil => exact absurd rfl hne
    | cons b n' =>
      simp only [List.nil_append, List.cons_append, List.isPrefixOf,
        Bool.and_eq_false_iff]
      left
      exact beq_eq_false_iff_ne.mpr
        (Ne.symm (wordChar_ne_braces (hn b (by simp))).2)
  | cons a k' ih =>
    intro n rest hk hn hne
    cases n with
    | nil =>
      simp only [List.nil_append, List.cons_append, List.isPrefixOf,
        Bool.and_eq_false_iff]
      left
      exact beq_eq_false_iff_ne.mpr (wordChar_ne_braces (hk a (by simp))).2
    | cons b n' =>
      by_cases hab : a = b
      · subst hab
        simp only [List.cons_append, List.isPrefixOf, Bool.and_eq_false_iff]
        right
        refine ih n' rest (fun c hc => hk c (by simp [hc]))
          (fun c hc => hn c (by simp [hc])) ?_
        intro he
        exact hne (by rw [he])
      · simp only [List.cons_append, List.isPrefixOf, Bool.and_eq_false_iff]
        left
        exact beq_eq_false_iff_ne.mpr hab

theorem replaceAllC_tok_ne (k v n : List Char) (rest : List Char)
    (hk : wordStr k) (hn : wordStr n) (hne : n ≠ k) :
    replaceAllC (tokOf k) v (tokOf n ++ rest)
      = tokOf n ++ replaceAllC (tokOf k) v rest := by
  obtain ⟨hknil, hkw⟩ := hk
  obtain ⟨hnnil, hnw⟩ := hn
  cases n with
  | nil => exact absurd rfl hnnil
  | cons n0 n' =>
    have hshape : tokOf (n0 :: n') ++ rest
        = '{' :: '{' :: (((n0 :: n') ++ ['}', '}']) ++ rest) := by
      simp [tokOf]
    have h0 : (tokOf k).isPrefixOf
        ('{' :: '{' :: (((n0 :: n') ++ ['}', '}']) ++ rest)) = false := by
      show (tokOf k).isPrefixOf
        ('{' :: '{' :: (((n0 :: n') ++ ['}', '}']) ++ rest)) = false
      unfold tokOf
      simp only [List.isPrefixOf, beq_self_eq_true, Bool.true_and]
      rw [List.append_assoc]
      exact isPrefixOf_tok_ne k (n0 :: n') rest hkw hnw
        (fun he => hne (he ▸ rfl))
    have h1 : (tokOf k).isPrefixOf
        ('{' :: (((n0 :: n') ++ ['}', '}']) ++ rest)) = false := by
      unfold tokOf
      simp only [List.cons_append, List.isPrefixOf, beq_self_eq_true,
        Bool.true_and, Bool.and_eq_false_iff]
      left
      exact beq_eq_false_iff_ne.mpr
        (Ne.symm (wordChar_ne_braces (hnw n0 (by simp))).1)
    unfold replaceAllC
    rw [hshape]
    have hl1 : ('{' :: '{' :: (((n0 :: n') ++ ['}', '}']) ++ rest)).length
        = (('{' :: (((n0 :: n') ++ ['}', '}']) ++ rest)).length) + 1 := by
      simp
    rw [hl1, replaceAllF_succ, if_neg (bool_neg_of_eq_false h0)]
    have hl2 : ('{' :: (((n0 :: n') ++ ['}', '}']) ++ rest)).length
        = ((((n0 :: n') ++ ['}', '}']) ++ rest).length) + 1 := by
      simp
    rw [hl2, replaceAllF_succ, if_neg (bool_neg_of_eq_false h1)]
    have hl3 : (((n0 :: n') ++ ['}', '}']) ++ rest).length
        = ((n0 :: n') ++ ['}', '}']).length + rest.length := by
      simp; omega
    rw [hl3, replaceAllF_text (tokOf k) v ('{' :: (k ++ ['}', '}'])) rfl
      ((n0 :: n') ++ ['}', '}'])
      (by
        intro c hc
        rcases List.mem_append.mp hc with hc | hc
        · exact (wordChar_ne_braces (hnw c hc)).1
        · simp at hc
          rcases hc with rfl | rfl <;> decide)
      rest.length rest]
    show '{' :: '{' :: (((n0 :: n') ++ ['}', '}']) ++ replaceAllC (tokOf k) v rest)
        = tokOf (n0 :: n') ++ replaceAllC (tokOf k) v rest
    simp [tokOf]

/-! ### Stepping lemmas for the removal pass -/

theorem stripF_nil (f : Nat) : stripF f [] = [] := by
  cases f <;> rfl

theorem stripF_succ (f : Nat) (c : Char) (cs : List Char) :
    stripF (f + 1) (c :: cs)
      = if c = '{' ∧ cs.head? = some '{' ∧
            ¬ (cs.tail.takeWhile isWordChar).isEmpty = true ∧
            (cs.tail.dropWhile isWordChar).take 2 = ['}', '}'] then
          stripF f ((cs.tail.dropWhile isWordChar).drop 2)
        else c :: stripF f cs := rfl

theorem length_dropWhile_le (p : Char → Bool) (l : List Char) :
    (l.dropWhile p).length ≤ l.length := by
  induction l with
  | nil => simp
  | cons a l' ih =>
    rw [List.dropWhile_cons]
    by_cases h : p a <;> simp [h] <;> omega

theorem stripF_fuel :
    ∀ (f1 : Nat) (s : List Char) (f2 : Nat),
      s.length ≤ f1 → s.length ≤ f2 → stripF f1 s = stripF f2 s := by
  intro f1
  induction f1 with
  | zero =>
    intro s f2 h1 _
    have : s = [] := List.eq_nil_of_length_eq_zero (by omega)
    subst this
    rw [stripF_nil, stripF_nil]
  | succ f ih =>
    intro s f2 h1 h2
    cases s with
    | nil => rw [stripF_nil, stripF_nil]
    | cons c cs =>
      cases f2 with
      | zero => simp at h2
      | succ g =>
        rw [stripF_succ, stripF_succ]
        simp only [List.length_cons] at h1 h2
        by_cases hcond : c = '{' ∧ cs.head? = some '{' ∧
            ¬ (cs.tail.takeWhile isWordChar).isEmpty = true ∧
            (cs.tail.dropWhile isWordChar).take 2 = ['}', '}']
        · rw [if_pos hcond, if_pos hcond]
          refine ih _ g ?_ ?_ <;>
            · have hd : ((cs.tail.dropWhile isWordChar).drop 2).length
                  ≤ cs.length := by
                have t1 : (cs.tail.dropWhile isWordChar).length
                    ≤ cs.tail.length := length_dropWhile_le _ _
                have t2 : cs.tail.length ≤ cs.length := by
                  cases cs <;> simp
                rw [List.length_drop]
                omega
              omega
        · rw [if_neg hcond, if_neg hcond]
          congr 1
          exact ih cs g (by omega) (by omega)

theorem stripF_text :
    ∀ (s : List Char), (∀ c ∈ s, c ≠ '{') →
      ∀ (g : Nat) (rest : List Char),
        stripF (s.length + g) (s ++ rest) = s ++ stripF g rest := by
  intro s
  induction s with
  | nil => intro _ g rest; simp
  | cons c cs ih =>
    intro hs g rest
    have hc : c ≠ '{' := hs c (by simp)
    have hlen : (c :: cs).length + g = (cs.length + g) + 1 := by
      simp only [List.length_cons]; omega
    rw [List.cons_append, hlen, stripF_succ, if_neg (fun h => hc h.1)]
    rw [ih (fun x hx => hs x (List.mem_cons_of_mem c hx)) g rest]
    rfl

theorem stripC_text (s : List Char) (hs : ∀ c ∈ s, c ≠ '{')
    (rest : List Char) :
    stripC (s ++ rest) = s ++ stripC rest := by
  unfold stripC
  rw [List.length_append]
  exact stripF_text s hs rest.length rest

theorem takeWhile_all_append (p : Char → Bool) (l : List Char) (x : Char)
    (r : List Char) (hl : ∀ c ∈ l, p c = true) (hx : p x = false) :
    (l ++ x :: r).takeWhile p = l := by
  induction l with
  | nil => simp [List.takeWhile, hx]
  | cons a l' ih =>
    rw [List.cons_append]
    rw [List.takeWhile_cons]
    rw [hl a (by simp)]
    simp only [if_pos]
    rw [ih (fun c hc => hl c (by simp [hc]))]

theorem dropWhile_all_append (p : Char → Bool) (l : List Char) (x : Char)
    (r : List Char) (hl : ∀ c ∈ l, p c = true) (hx : p x = false) :
    (l ++ x :: r).dropWhile p = x :: r := by
  induction l with
  | nil => simp [List.dropWhile, hx]
  | cons a l' ih =>
    rw [List.cons_append]
    rw [List.dropWhile_cons]
    rw [hl a (by simp)]
    simp only [if_pos]
    exact ih (fun c hc => hl c (by simp [hc]))

theorem stripC_tok (n : List Char) (rest : List Char) (hn : wordStr n) :
    stripC (tokOf n ++ rest) = stripC rest := by
  obtain ⟨hn0, hnw⟩ := hn
  have hshape : tokOf n ++ rest = '{' :: '{' :: (n ++ '}' :: '}' :: rest) := by
    simp [tokOf]
  have ht : (n ++ '}' :: '}' :: rest).takeWhile isWordChar = n :=
    takeWhile_all_append isWordChar n '}' ('}' :: rest) hnw (by decide)
  have hd : (n ++ '}' :: '}' :: rest).dropWhile isWordChar
      = '}' :: '}' :: rest :=
    dropWhile_all_append isWordChar n '}' ('}' :: rest) hnw (by decide)
  unfold stripC
  rw [hshape]
  have hl1 : ('{' :: '{' :: (n ++ '}' :: '}' :: rest)).length
      = (('{' :: (n ++ '}' :: '}' :: rest)).length) + 1 := by simp
  rw [hl1, stripF_succ]
  rw [if_pos ?hcond]
  case hcond =>
    refine ⟨rfl, by simp, ?_, ?_⟩
    · simp only [List.tail_cons, ht]
      simp [List.isEmpty_iff, hn0]
    · simp only [List.tail_cons, hd]
      rfl
  simp only [List.tail_cons, hd, List.drop_succ_cons, List.drop_zero]
  refine stripF_fuel _ rest _ ?_ (le_refl _)
  simp
  omega

/-- The removal pass on a well-formed template keeps exactly the text
chunks: every remaining macro token is deleted. -/
theorem stripC_chunks :
    ∀ (tpl : List Chunk), wfTemplate tpl →
      stripC (flattenChunks tpl) = expandSpecChunks [] tpl := by
  intro tpl
  induction tpl with
  | nil => intro _; rfl
  | cons ch r ih =>
    intro hwf
    have hr : wfTemplate r := fun c hc => hwf c (by simp [hc])
    cases ch with
    | text s =>
      have hs : braceFree s := hwf (.text s) (by simp)
      show stripC (s ++ flattenChunks r) = s ++ expandSpecChunks [] r
      rw [stripC_text s (fun c hc => (hs c hc).1) (flattenChunks r), ih hr]
    | tok n =>
      have hn : wordStr n := hwf (.tok n) (by simp)
      show stripC (tokOf n ++ flattenChunks r)
          = (List.lookup n ([] : List (List Char × List Char))).getD []
              ++ expandSpecChunks [] r
      rw [stripC_tok n (flattenChunks r) hn, ih hr]
      rfl

theorem replaceAllC_flatten (k v : List Char) (hk : wordStr k)
    (hv : braceFree v) :
    ∀ (tpl : List Chunk), wfTemplate tpl →
      replaceAllC (tokOf k) v (flattenChunks tpl)
        = flattenChunks (tpl.map (substChunk k v)) := by
  intro tpl
  induction tpl with
  | nil => intro _; rfl
  | cons ch r ih =>
    intro hwf
    have hr : wfTemplate r := fun c hc => hwf c (by simp [hc])
    cases ch with
    | text s =>
      have hs : braceFree s := hwf (.text s) (by simp)
      show replaceAllC (tokOf k) v (s ++ flattenChunks r)
          = flattenChunks ((Chunk.text s) :: r.map (substChunk k v))
      rw [replaceAllC_text (tokOf k) v ('{' :: (k ++ ['}', '}'])) rfl s
        (fun c hc => (hs c hc).1) (flattenChunks r), ih hr]
      rfl
    | tok n =>
      have hn : wordStr n := hwf (.tok n) (by simp)
      by_cases hnk : n = k
      · subst hnk
        show replaceAllC (tokOf n) v (tokOf n ++ flattenChunks r)
            = flattenChunks (substChunk n v (.tok n) :: r.map (substChunk n v))
        have hsc : substChunk n v (.tok n) = .text v := by simp [substChunk]
        rw [replaceAllC_head (tokOf n) v (by simp [tokOf]) (flattenChunks r),
          ih hr, hsc]
        rfl
      · show replaceAllC (tokOf k) v (tokOf n ++ flattenChunks r)
            = flattenChunks (substChunk k v (.tok n) :: r.map (substChunk k v))
        have hsc : substChunk k v (.tok n) = .tok n := by
          simp [substChunk, hnk]
        rw [replaceAllC_tok_ne k v n (flattenChunks r) hk hn hnk, ih hr, hsc]
        rfl

theorem wf_map_subst (k v : List Char) (hv : braceFree v)
    (tpl : List Chunk) (h : wfTemplate tpl) :
    wfTemplate (tpl.map (substChunk k v)) := by
  intro ch hch
  rcases List.mem_map.mp hch with ⟨ch0, hch0, rfl⟩
  cases ch0 with
  | text s => exact h (.text s) hch0
  | tok n =>
    by_cases hnk : n = k
    · simp only [substChunk, hnk, if_pos]
      exact hv
    · simp only [substChunk, hnk, if_neg, not_false_iff]
      exact h (.tok n) hch0

theorem foldl_replace_flatten (vars : List (List Char × List Char))
    (hvars : ∀ kv ∈ vars, wordStr kv.1 ∧ braceFree kv.2) :
    ∀ (tpl : List Chunk), wfTemplate tpl →
      vars.foldl (fun s kv => replaceAllC (tokOf kv.1) kv.2 s)
          (flattenChunks tpl)
        = flattenChunks
            (vars.foldl (fun t kv => t.map (substChunk kv.1 kv.2)) tpl) := by
  induction vars with
  | nil => intro tpl _; rfl
  | cons kv vs ih =>
    intro tpl htpl
    have hkv := hvars kv (by simp)
    rw [List.foldl_cons, List.foldl_cons,
      replaceAllC_flatten kv.1 kv.2 hkv.1 hkv.2 tpl htpl]
    exact ih (fun x hx => hvars x (by simp [hx]))
      (tpl.map (substChunk kv.1 kv.2))
      (wf_map_subst kv.1 kv.2 hkv.2 tpl htpl)

theorem foldl_map_eq_map_fold (vars : List (List Char × List Char)) :
    ∀ (tpl : List Chunk),
      vars.foldl (fun t kv => t.map (substChunk kv.1 kv.2)) tpl
        = tpl.map (fun ch =>
            vars.foldl (fun c kv => substChunk kv.1 kv.2 c) ch) := by
  induction vars with
  | nil => intro tpl; simp
  | cons kv vs ih =>
    intro tpl
    rw [List.foldl_cons, ih, List.map_map]
    simp [Function.comp]

theorem chunkFold_text (vars : List (List Char × List Char)) (s : List Char) :
    vars.foldl (fun c kv => substChunk kv.1 kv.2 c) (.text s) = .text s := by
  induction vars with
  | nil => rfl
  | cons kv vs ih => rw [List.foldl_cons]; exact ih

theorem chunkFold_tok (vars : List (List Char × List Char)) :
    ∀ (n : List Char),
      vars.foldl (fun c kv => substChunk kv.1 kv.2 c) (.tok n)
        = match List.lookup n vars with
          | some v => .text v
          | none => .tok n := by
  induction vars with
  | nil => intro n; rfl
  | cons kv vs ih =>
    intro n
    rw [List.foldl_cons]
    by_cases hnk : n = kv.1
    · have : substChunk kv.1 kv.2 (.tok n) = .text kv.2 := by
        simp [substChunk, hnk]
      rw [this, chunkFold_text]
      have hl : List.lookup n (kv :: vs) = some kv.2 := by
        cases kv with
        | mk k v =>
          simp only [List.lookup]
          have hbeq : (n == k) = true := by simp [hnk]
          rw [hbeq]
      rw [hl]
    · have : substChunk kv.1 kv.2 (.tok n) = .tok n := by
        simp [substChunk, hnk]
      rw [this, ih n]
      have hl : List.lookup n (kv :: vs) = List.lookup n vs := by
        cases kv with
        | mk k v =>
          simp only [List.lookup]
          have hbeq : (n == k) = false := by simp [hnk]
          rw [hbeq]
      rw [hl]

theorem lookup_some_mem (n v : List Char) :
    ∀ (vars : List (List Char × List Char)),
      List.lookup n vars = some v → (n, v) ∈ vars := by
  intro vars
  induction vars with
  | nil => intro h; simp [List.lookup] at h
  | cons kv vs ih =>
    intro h
    cases kv with
    | mk k w =>
      simp only [List.lookup] at h
      by_cases hnk : (n == k) = true
      · rw [hnk] at h
        injection h with h
        subst h
        have : n = k := by simpa using hnk
        subst this
        simp
      · have hbeq : (n == k) = false := by
          rwa [Bool.not_eq_true] at hnk
        rw [hbeq] at h
        exact List.mem_cons_of_mem _ (ih h)

theorem wf_map_chunkFold (vars : List (List Char × List Char))
    (hvars : ∀ kv ∈ vars, wordStr kv.1 ∧ braceFree kv.2)
    (tpl : List Chunk) (htpl : wfTemplate tpl) :
    wfTemplate (tpl.map (fun ch =>
      vars.foldl (fun c kv => substChunk kv.1 kv.2 c) ch)) := by
  intro ch hch
  rcases List.mem_map.mp hch with ⟨ch0, hch0, rfl⟩
  cases ch0 with
  | text s => rw [chunkFold_text]; exact htpl (.text s) hch0
  | tok n =>
    rw [chunkFold_tok]
    cases hl : List.lookup n vars with
    | none => exact htpl (.tok n) hch0
    | some v =>
      show wfChunk (.text v)
      exact (hvars (n, v) (lookup_some_mem n v vars hl)).2

theorem textOnly_map_fold (vars : List (List Char × List Char)) :
    ∀ (tpl : List Chunk),
      expandSpecChunks [] (tpl.map (fun ch =>
          vars.foldl (fun c kv => substChunk kv.1 kv.2 c) ch))
        = expandSpecChunks vars tpl := by
  intro tpl
  induction tpl with
  | nil => rfl
  | cons ch r ih =>
    cases ch with
    | text s =>
      show expandSpecChunks []
          ((vars.foldl (fun c kv => substChunk kv.1 kv.2 c) (.text s))
            :: r.map _) = s ++ expandSpecChunks vars r
      rw [chunkFold_text]
      show s ++ expandSpecChunks [] (r.map _) = s ++ expandSpecChunks vars r
      rw [ih]
    | tok n =>
      show expandSpecChunks []
          ((vars.foldl (fun c kv => substChunk kv.1 kv.2 c) (.tok n))
            :: r.map _)
          = (List.lookup n vars).getD [] ++ expandSpecChunks vars r
      rw [chunkFold_tok]
      cases hl : List.lookup n vars with
      | none =>
        show expandSpecChunks [] ((Chunk.tok n) :: r.map _)
            = [] ++ expandSpecChunks vars r
        show (List.lookup n ([] : List (List Char × List Char))).getD []
            ++ expandSpecChunks [] (r.map _) = [] ++ expandSpecChunks vars r
        rw [ih]
        rfl
      | some v =>
        show expandSpecChunks [] ((Chunk.text v) :: r.map _)
            = v ++ expandSpecChunks vars r
        show v ++ expandSpecChunks [] (r.map _) = v ++ expandSpecChunks vars r
        rw [ih]

/-! ### C3: replace known macros, delete unknown tokens -/

/-- C3: on a well-formed template (literal text without braces
alternating with `{{name}}` tokens carrying non-empty word names) and a
variable map whose values contain no braces, ProcessTemplate replaces
each token whose name is a key with that key's literal value and deletes
every remaining token, exactly the single-pass specification
`expandSpecChunks`. -/
theorem processTemplate_expands_and_strips (tpl : List Chunk)
    (vars : List (List Char × List Char)) (htpl : wfTemplate tpl)
    (hvars : ∀ kv ∈ vars, wordStr kv.1 ∧ braceFree kv.2) :
    processTemplateL (flattenChunks tpl) vars = expandSpecChunks vars tpl := by
  unfold processTemplateL
  rw [foldl_replace_flatten vars hvars tpl htpl, foldl_map_eq_map_fold,
    stripC_chunks _ (wf_map_chunkFold vars hvars tpl htpl),
    textOnly_map_fold]

/-- C3 witness: the hypotheses hold for the claim's example and the
engine yields "Hello Bo, you have 3 msgs and ." both through the chunk
theorem and on the raw strings. -/
theorem processTemplate_expands_and_strips_witness :
    (wfTemplate c3Tpl ∧ ∀ kv ∈ c3Vars, wordStr kv.1 ∧ braceFree kv.2) ∧
    processTemplateL (flattenChunks c3Tpl) c3Vars
      = expandSpecChunks c3Vars c3Tpl ∧
    processTemplate "Hello {{name}}, you have {{n}} msgs and {{missing}}."
        [("n", "3"), ("name", "Bo")]
      = "Hello Bo, you have 3 msgs and ." :=
  ⟨⟨by decide, by decide⟩,
   processTemplate_expands_and_strips c3Tpl c3Vars (by decide) (by decide),
   by decide⟩

/-! ### C4: substitution is not insulated from later passes -/

/-- C4 counterexample: with vars {a ↦ "{{b}}", b ↦ "X"} (iterated in
ascending key order), the value substituted for `a` contains `{{b}}`,
and that occurrence IS expanded by b's later pass: the call returns
"X", not "{{b}}" - so a substituted value's macro occurrence is
consumed by the same Expand call. -/
theorem processTemplate_rescans_substituted_value :
    processTemplate "{{a}}" [("a", "{{b}}"), ("b", "X")] = "X" ∧
    ("X" : String) ≠ "{{b}}" := by
  constructor
  · rfl
  · decide

/-- C4 amended: substitution is single-pass per key, in ascending key
order.  Within one key's pass the inserted text is not re-scanned (a
value containing its own token survives its own pass and is then
deleted by the removal pass, second conjunct), but a token of a
lexicographically later key inside a substituted value is expanded by
that key's pass (first conjunct), and any token left after all passes
is deleted. -/
theorem processTemplate_single_pass_per_key (a b vb : List Char)
    (ha : wordStr a) (hb : wordStr b) (hab : a ≠ b) (hvb : braceFree vb) :
    processTemplateL (tokOf a) [(a, tokOf b), (b, vb)] = vb ∧
    processTemplateL (tokOf a) [(a, tokOf a)] = [] := by
  have htokNil : ∀ (k : List Char), tokOf k ≠ [] := by
    intro k h; simp [tokOf] at h
  have hhead : ∀ (k v : List Char),
      replaceAllC (tokOf k) v (tokOf k) = v := by
    intro k v
    have := replaceAllC_head (tokOf k) v (htokNil k) []
    rwa [List.append_nil, replaceAllC_nil, List.append_nil] at this
  constructor
  · unfold processTemplateL
    rw [List.foldl_cons, List.foldl_cons, List.foldl_nil]
    simp only
    rw [hhead a (tokOf b), hhead b vb]
    have hsn : stripC ([] : List Char) = [] := rfl
    have := stripC_text vb (fun c hc => (hvb c hc).1) []
    rwa [List.append_nil, hsn, List.append_nil] at this

  · unfold processTemplateL
    rw [List.foldl_cons, List.foldl_nil]
    simp only
    rw [hhead a (tokOf a)]
    have h0 : stripC (tokOf a ++ []) = stripC [] := stripC_tok a [] ha
    rwa [List.append_nil] at h0

/-- C4 amended, witness at keys "a" < "b" with vb = "X". -/
theorem processTemplate_single_pass_per_key_witness :
    (wordStr "a".data ∧ wordStr "b".data ∧ "a".data ≠ "b".data ∧
      braceFree "X".data) ∧
    processTemplateL (tokOf "a".data)
        [("a".data, tokOf "b".data), ("b".data, "X".data)] = "X".data :=
  ⟨⟨by decide, by decide, by decide, by decide⟩,
   (processTemplate_single_pass_per_key "a".data "b".data "X".data
     (by decide) (by decide) (by decide) (by decide)).1⟩

/-! ### Date formatting and parsing round-trip -/

theorem digitChar_isDigit : ∀ k, k < 10 → (Nat.digitChar k).isDigit = true := by
  decide

theorem digitChar_toNat : ∀ k, k < 10 → (Nat.digitChar k).toNat - 48 = k := by
  decide

theorem digitChar_tame : ∀ k, k < 10 →
    Nat.digitChar k ≠ '\n' ∧ Nat.digitChar k ≠ '#' ∧
    isBlankCh (Nat.digitChar k) = false := by
  decide

theorem pad2_digits (n : Int) : ∀ c ∈ pad2 n, c.isDigit = true := by
  intro c hc
  simp only [pad2, List.mem_cons, List.not_mem_nil, or_false] at hc
  rcases hc with rfl | rfl
  · exact digitChar_isDigit _ (Nat.mod_lt _ (by omega))
  · exact digitChar_isDigit _ (Nat.mod_lt _ (by omega))

theorem pad4_digits (n : Int) : ∀ c ∈ pad4 n, c.isDigit = true := by
  intro c hc
  simp only [pad4, List.mem_cons, List.not_mem_nil, or_false] at hc
  rcases hc with rfl | rfl | rfl | rfl <;>
    exact digitChar_isDigit _ (Nat.mod_lt _ (by omega))

theorem read2_pad2 (n : Int) (h0 : 0 ≤ n) (h : n ≤ 99) (r : List Char) :
    read2 (pad2 n ++ r) = some (n.toNat, r) := by
  have hn : n.toNat ≤ 99 := by omega
  have d1 := digitChar_isDigit ((n.toNat / 10) % 10) (Nat.mod_lt _ (by omega))
  have d2 := digitChar_isDigit (n.toNat % 10) (Nat.mod_lt _ (by omega))
  have v1 := digitChar_toNat ((n.toNat / 10) % 10) (Nat.mod_lt _ (by omega))
  have v2 := digitChar_toNat (n.toNat % 10) (Nat.mod_lt _ (by omega))
  show (if ((n.toNat / 10 % 10).digitChar.isDigit = true ∧
        (n.toNat % 10).digitChar.isDigit = true) then
      some (10 * ((n.toNat / 10 % 10).digitChar.toNat - 48)
        + ((n.toNat % 10).digitChar.toNat - 48), r)
    else none) = some (n.toNat, r)
  rw [if_pos ⟨d1, d2⟩]
  have hval : 10 * ((n.toNat / 10 % 10).digitChar.toNat - 48)
      + ((n.toNat % 10).digitChar.toNat - 48) = n.toNat := by
    rw [v1, v2]
    omega
  rw [hval]

theorem readDigits_pad4 (n : Int) (h0 : 1000 ≤ n) (h : n ≤ 9999)
    (x : Char) (hx : x.isDigit = false) (r : List Char) :
    readDigits (pad4 n ++ x :: r) = some (n.toNat, x :: r) := by
  have ht : (pad4 n ++ x :: r).takeWhile (·.isDigit) = pad4 n :=
    takeWhile_all_append _ (pad4 n) x r (pad4_digits n) hx
  have hd : (pad4 n ++ x :: r).dropWhile (·.isDigit) = x :: r :=
    dropWhile_all_append _ (pad4 n) x r (pad4_digits n) hx
  unfold readDigits
  rw [ht, hd]
  rw [if_neg (by simp [pad4])]
  have hn1 : n.toNat ≤ 9999 := by omega
  have v1 := digitChar_toNat ((n.toNat / 1000) % 10) (Nat.mod_lt _ (by omega))
  have v2 := digitChar_toNat ((n.toNat / 100) % 10) (Nat.mod_lt _ (by omega))
  have v3 := digitChar_toNat ((n.toNat / 10) % 10) (Nat.mod_lt _ (by omega))
  have v4 := digitChar_toNat (n.toNat % 10) (Nat.mod_lt _ (by omega))
  have hval : digitsToNat (pad4 n) = n.toNat := by
    unfold digitsToNat pad4
    simp only [List.foldl_cons, List.foldl_nil]
    rw [Nat.zero_mul, Nat.zero_add, v1, v2, v3, v4]
    omega
  rw [hval]

theorem expectChar_cons (c : Char) (r : List Char) :
    expectChar c (c :: r) = some r := by
  show (if c = c then some r else none) = some r
  rw [if_pos rfl]

theorem parseAnsiTm_fmt (tm : Tm)
    (hy : 1970 ≤ tm.year ∧ tm.year ≤ 9999)
    (hmo : 1 ≤ tm.month ∧ tm.month ≤ 12)
    (hd : 1 ≤ tm.day ∧ tm.day ≤ 31)
    (hh : 0 ≤ tm.hour ∧ tm.hour ≤ 23)
    (hmi : 0 ≤ tm.minute ∧ tm.minute ≤ 59) :
    parseAnsiTm (fmtTm tm)
      = some { year := tm.year, month := tm.month, day := tm.day,
               hour := tm.hour, minute := tm.minute, sec := 0 } := by
  have e1 := readDigits_pad4 tm.year (by omega) (by omega) '-' (by decide)
    (pad2 tm.month ++ '-' :: (pad2 tm.day
      ++ ' ' :: (pad2 tm.hour ++ ':' :: pad2 tm.minute)))
  have e2 := read2_pad2 tm.month (by omega) (by omega)
    ('-' :: (pad2 tm.day ++ ' ' :: (pad2 tm.hour ++ ':' :: pad2 tm.minute)))
  have e3 := read2_pad2 tm.day (by omega) (by omega)
    (' ' :: (pad2 tm.hour ++ ':' :: pad2 tm.minute))
  have e4 := read2_pad2 tm.hour (by omega) (by omega)
    (':' :: pad2 tm.minute)
  have e5 := read2_pad2 tm.minute (by omega) (by omega) ([] : List Char)
  have hmin : pad2 tm.minute ++ ([] : List Char) = pad2 tm.minute := by
    simp
  rw [hmin] at e5
  have t1 : ((tm.year.toNat : Int)) = tm.year := Int.toNat_of_nonneg (by omega)
  have t2 : ((tm.month.toNat : Int)) = tm.month := Int.toNat_of_nonneg (by omega)
  have t3 : ((tm.day.toNat : Int)) = tm.day := Int.toNat_of_nonneg (by omega)
  have t4 : ((tm.hour.toNat : Int)) = tm.hour := Int.toNat_of_nonneg (by omega)
  have t5 : ((tm.minute.toNat : Int)) = tm.minute :=
    Int.toNat_of_nonneg (by omega)
  unfold fmtTm parseAnsiTm
  rw [e1]
  simp only [Option.some_bind]
  rw [expectChar_cons]
  simp only [Option.some_bind]
  rw [e2]
  simp only [Option.some_bind]
  rw [expectChar_cons]
  simp only [Option.some_bind]
  rw [e3]
  simp only [Option.some_bind]
  rw [expectChar_cons]
  simp only [Option.some_bind]
  rw [e4]
  simp only [Option.some_bind]
  rw [expectChar_cons]
  simp only [Option.some_bind]
  rw [e5]
  simp only [Option.map_some']
  rw [t1, t2, t3, t4, t5]

theorem fmtTm_ne_empty (tm : Tm) : (fmtTm tm).isEmpty = false := by
  simp [fmtTm, pad4]

theorem getTime_toStringAnsi (C : Calendar) (t : Int) (h0 : 0 ≤ t)
    (hmax : t ≤ C.maxT) (hmod : t % 60 = 0) :
    getTime C (toStringAnsi C t) = .ok t := by
  by_cases ht : t = 0
  · subst ht
    rfl
  · unfold toStringAnsi
    rw [if_neg ht]
    unfold getTime
    rw [if_neg (by simp [fmtTm_ne_empty])]
    obtain ⟨r1, r2, r3, r4, r5, r6, r7, r8, r9, r10⟩ :=
      C.ranges t h0 hmax
    rw [parseAnsiTm_fmt (C.epochToCivil t) ⟨r1, r2⟩ ⟨r3, r4⟩ ⟨r5, r6⟩
      ⟨r7, r8⟩ ⟨r9, r10⟩]
    have hsec : (C.epochToCivil t).sec = 0 := by
      rw [C.secLaw t, hmod]
    have heq : ({ year := (C.epochToCivil t).year,
                  month := (C.epochToCivil t).month,
                  day := (C.epochToCivil t).day,
                  hour := (C.epochToCivil t).hour,
                  minute := (C.epochToCivil t).minute, sec := 0 } : Tm)
        = C.epochToCivil t := by
      cases hE : C.epochToCivil t with
      | mk y mo d h mi sc =>
        rw [hE] at hsec
        simp at hsec
        simp [hsec]
    simp only [heq, C.inv]

/-! ### Lines, FetchHeader, comments -/

theorem splitCharOn_ne_nil (sep : Char) :
    ∀ (l : List Char), splitCharOn sep l ≠ [] := by
  intro l
  induction l with
  | nil => simp [splitCharOn]
  | cons c cs ih =>
    unfold splitCharOn
    by_cases h : c = sep
    · simp [h]
    · simp only [h, if_neg, not_false_iff]
      cases hs : splitCharOn sep cs with
      | nil => simp
      | cons a t => simp

theorem splitCharOn_no_sep (sep : Char) :
    ∀ (l : List Char), sep ∉ l → splitCharOn sep l = [l] := by
  intro l
  induction l with
  | nil => intro _; rfl
  | cons c cs ih =>
    intro h
    have hc : c ≠ sep := fun he => h (by simp [he])
    unfold splitCharOn
    rw [if_neg hc]
    rw [ih (fun hm => h (by simp [hm]))]

theorem splitCharOn_cons (sep c : Char) (cs : List Char) :
    splitCharOn sep (c :: cs)
      = if c = sep then [] :: splitCharOn sep cs
        else
          match splitCharOn sep cs with
          | [] => [[c]]
          | h :: t => (c :: h) :: t := rfl

theorem splitCharOn_append (sep : Char) :
    ∀ (l r : List Char), sep ∉ l →
      splitCharOn sep (l ++ sep :: r) = l :: splitCharOn sep r := by
  intro l
  induction l with
  | nil =>
    intro r _
    show splitCharOn sep (sep :: r) = [] :: splitCharOn sep r
    rw [splitCharOn_cons, if_pos rfl]
  | cons c cs ih =>
    intro r h
    have hc : c ≠ sep := fun he => h (by simp [he])
    show splitCharOn sep (c :: (cs ++ sep :: r)) = (c :: cs) :: splitCharOn sep r
    rw [splitCharOn_cons, if_neg hc, ih r (fun hm => h (by simp [hm]))]

theorem splitCharOn_joinNl :
    ∀ (ls : List (List Char)), (∀ l ∈ ls, '\n' ∉ l) →
      splitCharOn '\n' (joinNl ls) = ls ++ [[]] := by
  intro ls
  induction ls with
  | nil => intro _; rfl
  | cons l r ih =>
    intro h
    show splitCharOn '\n' (l ++ '\n' :: joinNl r) = (l :: r) ++ [[]]
    rw [splitCharOn_append '\n' l (joinNl r) (h l (by simp)),
      ih (fun x hx => h x (by simp [hx]))]
    rfl

theorem linesOf_joinNl (ls : List (List Char)) (h : ∀ l ∈ ls, '\n' ∉ l) :
    linesOf (joinNl ls) = ls := by
  unfold linesOf
  rw [splitCharOn_joinNl ls h]
  rw [if_pos (by rw [List.getLast?_concat])]
  rw [List.dropLast_concat]

theorem fetchLines_body (dl : List Char) (hdl : isDelim dl = true) :
    ∀ (body : List (List Char)), (∀ l ∈ body, isDelim l = false) →
      fetchLines 1 (body ++ [dl]) = .ok (joinNl body) := by
  intro body
  induction body with
  | nil =>
    intro _
    show fetchLines 1 [dl] = .ok []
    unfold fetchLines
    rw [hdl]
    simp
  | cons l r ih =>
    intro h
    have hl : isDelim l = false := h l (by simp)
    show fetchLines 1 (l :: (r ++ [dl])) = .ok (l ++ '\n' :: joinNl r)
    unfold fetchLines
    rw [hl]
    simp only [if_false, Bool.false_eq_true]
    rw [if_neg (by omega)]
    rw [if_pos (by simp [hl])]
    rw [ih (fun x hx => h x (by simp [hx]))]
    rfl

theorem fetchHeader_serialized (C : Calendar) (m : HeaderRec)
    (h : ∀ l ∈ headerLines C m, isDelim l = false ∧ '\n' ∉ l) :
    fetchHeader (serializeHeader C m) = .ok (joinNl (headerLines C m)) := by
  unfold fetchHeader serializeHeader
  rw [show ("---".data :: headerLines C m ++ ["---".data])
      = "---".data :: (headerLines C m ++ ["---".data]) from rfl]
  rw [linesOf_joinNl _ ?hnl]
  case hnl =>
    intro l hl
    rcases List.mem_cons.mp hl with rfl | hl
    · decide
    · rcases List.mem_append.mp hl with hl | hl
      · exact (h l hl).2
      · simp at hl
        subst hl
        decide
  show fetchLines 0 ("---".data :: (headerLines C m ++ ["---".data]))
      = .ok (joinNl (headerLines C m))
  unfold fetchLines
  rw [show isDelim "---".data = true from by decide]
  simp only [if_true]
  rw [if_neg (by omega)]
  rw [if_neg (by simp)]
  exact fetchLines_body "---".data (by decide) (headerLines C m)
    (fun l hl => (h l hl).1)

theorem removeCommentsF_id :
    ∀ (f : Nat) (s : List Char), s.length ≤ f → (∀ c ∈ s, c ≠ '#') →
      removeCommentsF f s = s := by
  intro f
  induction f with
  | zero =>
    intro s h1 _
    have : s = [] := List.eq_nil_of_length_eq_zero (by omega)
    subst this
    rfl
  | succ f ih =>
    intro s h1 h2
    cases s with
    | nil => rfl
    | cons c cs =>
      show (if c = '#' then _ else c :: removeCommentsF f cs) = c :: cs
      rw [if_neg (h2 c (by simp))]
      rw [ih cs (by simp at h1; omega) (fun x hx => h2 x (by simp [hx]))]

theorem removeComments_id (s : List Char) (h : ∀ c ∈ s, c ≠ '#') :
    removeComments s = s :=
  removeCommentsF_id s.length s (le_refl _) h

theorem mem_joinNl :
    ∀ (ls : List (List Char)) (c : Char), c ∈ joinNl ls →
      c = '\n' ∨ ∃ l ∈ ls, c ∈ l := by
  intro ls
  induction ls with
  | nil => intro c hc; simp [joinNl] at hc
  | cons l r ih =>
    intro c hc
    have hc2 : c ∈ l ++ '\n' :: joinNl r := hc
    rcases List.mem_append.mp hc2 with hc | hc
    · right; exact ⟨l, by simp, hc⟩
    · rcases List.mem_cons.mp hc with rfl | hc
      · left; rfl
      · rcases ih c hc with h | ⟨x, hx, hcx⟩
        · left; exact h
        · right; exact ⟨x, by simp [hx], hcx⟩

/-! ### The grammar on serializer output -/

theorem keyChar_not_blank (c : Char) (h : isKeyChar c = true) :
    isBlankCh c = false := by
  cases hb : isBlankCh c
  · rfl
  · simp only [isBlankCh, Bool.or_eq_true] at hb
    rcases hb with hb | hb <;>
      · rw [show c = _ from by simpa using hb] at h
        exact absurd h (by decide)

theorem keyChar_ne_nl (c : Char) (h : isKeyChar c = true) : c ≠ '\n' := by
  intro he
  rw [he] at h
  exact absurd h (by decide)

theorem dropWhile_cons_false (p : Char → Bool) (c : Char) (l : List Char)
    (h : p c = false) : (c :: l).dropWhile p = c :: l := by
  rw [List.dropWhile_cons, h]
  simp

theorem parseHeaderLine_mk (key v : List Char) (hk : key ≠ [])
    (hkc : ∀ c ∈ key, isKeyChar c = true)
    (hv : ¬ (v.dropWhile isBlankCh).isEmpty = true) :
    parseHeaderLine (key ++ ':' :: ' ' :: v)
      = some (key, v.dropWhile isBlankCh) := by
  have h1 : (key ++ ':' :: ' ' :: v).dropWhile isBlankCh
      = key ++ ':' :: ' ' :: v := by
    cases key with
    | nil => exact absurd rfl hk
    | cons k0 ks =>
      rw [List.cons_append]
      exact dropWhile_cons_false isBlankCh k0 (ks ++ ':' :: ' ' :: v)
        (keyChar_not_blank k0 (hkc k0 (by simp)))
  have h2 : (key ++ ':' :: ' ' :: v).takeWhile isKeyChar = key :=
    takeWhile_all_append isKeyChar key ':' (' ' :: v) hkc (by decide)
  have h3 : (key ++ ':' :: ' ' :: v).dropWhile isKeyChar = ':' :: ' ' :: v :=
    dropWhile_all_append isKeyChar key ':' (' ' :: v) hkc (by decide)
  have h4 : (':' :: ' ' :: v).dropWhile isBlankCh = ':' :: ' ' :: v :=
    dropWhile_cons_false isBlankCh ':' (' ' :: v) (by decide)
  have h5 : (' ' :: v).dropWhile isBlankCh = v.dropWhile isBlankCh := by
    rw [List.dropWhile_cons]
    simp [isBlankCh]
  unfold parseHeaderLine
  rw [h1, h2, h3, h4]
  rw [if_neg (by simp [List.isEmpty_iff, hk])]
  simp only [h5]
  rw [if_neg hv]

theorem parseHeaderBlock_mk (kvs : List (List Char × List Char))
    (h : ∀ kv ∈ kvs, kv.1 ≠ [] ∧ (∀ c ∈ kv.1, isKeyChar c = true) ∧
      ('\n' ∉ kv.2) ∧ ¬ (kv.2.dropWhile isBlankCh).isEmpty = true) :
    parseHeaderBlock (joinNl (kvs.map (fun kv => kv.1 ++ ':' :: ' ' :: kv.2)))
      = some (kvs.map (fun kv => (kv.1, kv.2.dropWhile isBlankCh))) := by
  have hnl : ∀ l ∈ kvs.map (fun kv => kv.1 ++ ':' :: ' ' :: kv.2),
      '\n' ∉ l := by
    intro l hl hmem
    rcases List.mem_map.mp hl with ⟨kv, hkv, rfl⟩
    obtain ⟨_, hkc, hvnl, _⟩ := h kv hkv
    rcases List.mem_append.mp hmem with hm | hm
    · exact keyChar_ne_nl _ (hkc _ hm) rfl
    · rcases List.mem_cons.mp hm with hm | hm
      · exact absurd hm.symm (by decide)
      · rcases List.mem_cons.mp hm with hm | hm
        · exact absurd hm.symm (by decide)
        · exact hvnl hm
  unfold parseHeaderBlock
  rw [splitCharOn_joinNl _ hnl]
  rw [if_pos (by rw [List.getLast?_concat])]
  rw [List.dropLast_concat]
  induction kvs with
  | nil => rfl
  | cons kv rest ih =>
    show parseHeaderLinesGo
        ((kv.1 ++ ':' :: ' ' :: kv.2)
          :: rest.map (fun kv => kv.1 ++ ':' :: ' ' :: kv.2))
      = some ((kv.1, kv.2.dropWhile isBlankCh)
          :: rest.map (fun kv => (kv.1, kv.2.dropWhile isBlankCh)))
    obtain ⟨hk1, hk2, _, hk4⟩ := h kv (by simp)
    unfold parseHeaderLinesGo
    rw [parseHeaderLine_mk kv.1 kv.2 hk1 hk2 hk4]
    rw [ih (fun x hx => h x (by simp [hx]))
      (fun l hl => hnl l (by simp [hl]))]
    rfl

/-! ### Lookups in the parsed header map -/

theorem lookup_parsed_absent (key : List Char) :
    ∀ (fields : List (List Char × List Char)),
      (∀ kv ∈ fields, kv.1 ≠ key) →
      List.lookup key
        ((fields.filter (fun kv => ¬ kv.2.isEmpty)).map
          (fun kv => (kv.1, kv.2.dropWhile isBlankCh))) = none := by
  intro fields
  induction fields with
  | nil => intro _; rfl
  | cons kv rest ih =>
    intro h
    have hne : kv.1 ≠ key := h kv (by simp)
    by_cases hemp : kv.2.isEmpty
    · have : (kv :: rest).filter (fun kv => ¬ kv.2.isEmpty)
          = rest.filter (fun kv => ¬ kv.2.isEmpty) := by
        rw [List.filter_cons]
        simp [hemp]
      rw [this]
      exact ih (fun x hx => h x (by simp [hx]))
    · have : (kv :: rest).filter (fun kv => ¬ kv.2.isEmpty)
          = kv :: rest.filter (fun kv => ¬ kv.2.isEmpty) := by
        rw [List.filter_cons]
        simp [hemp]
      rw [this, List.map_cons]
      show List.lookup key ((kv.1, kv.2.dropWhile isBlankCh) :: _) = none
      rw [List.lookup_cons]
      have hbeq : (key == kv.1) = false := by
        simp [Ne.symm hne]
      rw [hbeq]
      exact ih (fun x hx => h x (by simp [hx]))

theorem lookup_parsed_found (key v : List Char) :
    ∀ (fields : List (List Char × List Char)),
      (fields.map Prod.fst).Nodup →
      List.lookup key fields = some v →
      List.lookup key
        ((fields.filter (fun kv => ¬ kv.2.isEmpty)).map
          (fun kv => (kv.1, kv.2.dropWhile isBlankCh)))
        = if v.isEmpty then none else some (v.dropWhile isBlankCh) := by
  intro fields
  induction fields with
  | nil => intro _ hl; simp [List.lookup] at hl
  | cons kv rest ih =>
    intro hnd hl
    rw [List.lookup_cons] at hl
    by_cases hbeq : (key == kv.1) = true
    · rw [hbeq] at hl
      injection hl with hl
      subst hl
      have hkey : kv.1 = key := by
        have := eq_of_beq hbeq
        exact this.symm
      have habsent : ∀ x ∈ rest, x.1 ≠ key := by
        intro x hx he
        have : kv.1 ∈ rest.map Prod.fst := by
          rw [hkey, ← he]
          exact List.mem_map_of_mem Prod.fst hx
        exact (List.nodup_cons.mp hnd).1 this
      by_cases hemp : kv.2.isEmpty
      · have : (kv :: rest).filter (fun kv => ¬ kv.2.isEmpty)
            = rest.filter (fun kv => ¬ kv.2.isEmpty) := by
          rw [List.filter_cons]; simp [hemp]
        rw [this, if_pos hemp]
        exact lookup_parsed_absent key rest habsent
      · have : (kv :: rest).filter (fun kv => ¬ kv.2.isEmpty)
            = kv :: rest.filter (fun kv => ¬ kv.2.isEmpty) := by
          rw [List.filter_cons]; simp [hemp]
        rw [this, List.map_cons]
        show List.lookup key ((kv.1, kv.2.dropWhile isBlankCh) :: _)
            = if kv.2.isEmpty = true then none
              else some (kv.2.dropWhile isBlankCh)
        rw [List.lookup_cons, hbeq, if_neg hemp]
    · have hbf : (key == kv.1) = false := by
        rwa [Bool.not_eq_true] at hbeq
      rw [hbf] at hl
      have htail := ih (List.nodup_cons.mp hnd).2 hl
      by_cases hemp : kv.2.isEmpty
      · have : (kv :: rest).filter (fun kv => ¬ kv.2.isEmpty)
            = rest.filter (fun kv => ¬ kv.2.isEmpty) := by
          rw [List.filter_cons]; simp [hemp]
        rw [this]
        exact htail
      · have : (kv :: rest).filter (fun kv => ¬ kv.2.isEmpty)
            = kv :: rest.filter (fun kv => ¬ kv.2.isEmpty) := by
          rw [List.filter_cons]; simp [hemp]
        rw [this, List.map_cons]
        show List.lookup key ((kv.1, kv.2.dropWhile isBlankCh) :: _) = _
        rw [List.lookup_cons, hbf]
        exact htail

/-! ### Tags through parse_list -/

theorem joinTags_cons_ne (t t2 : List Char) (ts : List (List Char)) :
    joinTags (t :: t2 :: ts) = t ++ ',' :: ' ' :: joinTags (t2 :: ts) := rfl

theorem joinTags_chars :
    ∀ (tags : List (List Char)) (c : Char), c ∈ joinTags tags →
      (∃ t ∈ tags, c ∈ t) ∨ c = ',' ∨ c = ' ' := by
  intro tags
  induction tags with
  | nil => intro c hc; simp [joinTags] at hc
  | cons t ts ih =>
    intro c hc
    cases ts with
    | nil =>
      left
      exact ⟨t, by simp, hc⟩
    | cons t2 ts' =>
      rw [joinTags_cons_ne] at hc
      rcases List.mem_append.mp hc with hc | hc
      · left; exact ⟨t, by simp, hc⟩
      · rcases List.mem_cons.mp hc with rfl | hc
        · right; left; rfl
        · rcases List.mem_cons.mp hc with rfl | hc
          · right; right; rfl
          · rcases ih c hc with ⟨x, hx, hcx⟩ | h
            · left; exact ⟨x, by simp [hx], hcx⟩
            · right; exact h

theorem dropWhile_eq_self_head (p : Char → Bool) (l : List Char)
    (h : ∀ c, l.head? = some c → p c = false) : l.dropWhile p = l := by
  cases l with
  | nil => rfl
  | cons c cs => exact dropWhile_cons_false p c cs (h c rfl)

theorem joinTags_head (t : List Char) (ts : List (List Char)) (ht : t ≠ []) :
    (joinTags (t :: ts)).head? = t.head? := by
  cases ts with
  | nil => rfl
  | cons t2 ts' =>
    rw [joinTags_cons_ne]
    cases t with
    | nil => exact absurd rfl ht
    | cons c cs => rfl

theorem parseListGo_space (X : List Char) :
    parseListGo (splitCharOn ',' (' ' :: X))
      = parseListGo (splitCharOn ',' X) := by
  rw [splitCharOn_cons, if_neg (by decide)]
  cases hs : splitCharOn ',' X with
  | nil => exact absurd hs (splitCharOn_ne_nil ',' X)
  | cons h t =>
    show parseListGo ((' ' :: h) :: t) = parseListGo (h :: t)
    unfold parseListGo
    have hsp : (' ' :: h).dropWhile isSpaceCh = h.dropWhile isSpaceCh := by
      rw [List.dropWhile_cons]
      simp [isSpaceCh]
    rw [hsp]

theorem parseListTokens_joinTags :
    ∀ (tags : List (List Char)), tags ≠ [] →
      (∀ t ∈ tags, t ≠ [] ∧ (',' ∉ t) ∧ t.dropWhile isSpaceCh = t) →
      parseListTokens (joinTags tags) = some tags := by
  intro tags
  induction tags with
  | nil => intro h _; exact absurd rfl h
  | cons t ts ih =>
    intro _ h
    obtain ⟨ht1, ht2, ht3⟩ := h t (by simp)
    cases ts with
    | nil =>
      show parseListTokens t = some [t]
      unfold parseListTokens
      rw [splitCharOn_no_sep ',' t ht2]
      unfold parseListGo
      rw [ht3]
      rw [if_neg (by simp [List.isEmpty_iff, ht1])]
      rfl
    | cons t2 ts' =>
      show parseListTokens (t ++ ',' :: ' ' :: joinTags (t2 :: ts'))
          = some (t :: t2 :: ts')
      unfold parseListTokens
      rw [splitCharOn_append ',' t _ ht2]
      unfold parseListGo
      rw [ht3]
      rw [if_neg (by simp [List.isEmpty_iff, ht1])]
      have hrest : parseListGo (splitCharOn ',' (' ' :: joinTags (t2 :: ts')))
          = some (t2 :: ts') := by
        rw [parseListGo_space]
        exact ih (by simp) (fun x hx => h x (by simp [hx]))
      rw [hrest]
      rfl

/-! ### Character facts about formatted times -/

theorem fmtTm_cons (tm : Tm) :
    fmtTm tm = Nat.digitChar ((tm.year.toNat / 1000) % 10)
      :: (Nat.digitChar ((tm.year.toNat / 100) % 10)
        :: Nat.digitChar ((tm.year.toNat / 10) % 10)
        :: Nat.digitChar (tm.year.toNat % 10)
        :: ('-' :: (pad2 tm.month ++ '-' :: (pad2 tm.day
          ++ ' ' :: (pad2 tm.hour ++ ':' :: pad2 tm.minute))))) := rfl

theorem digitLike_tame (c : Char) (h : c.isDigit = true) :
    c ≠ '\n' ∧ c ≠ '#' ∧ isBlankCh c = false := by
  refine ⟨?_, ?_, ?_⟩
  · intro he; subst he; exact absurd h (by decide)
  · intro he; subst he; exact absurd h (by decide)
  · cases hb : isBlankCh c
    · rfl
    · simp only [isBlankCh, Bool.or_eq_true] at hb
      rcases hb with hb | hb <;>
        · rw [show c = _ from by simpa using hb] at h
          exact absurd h (by decide)

theorem fmtTm_mem_class (tm : Tm) (c : Char) (hc : c ∈ fmtTm tm) :
    c.isDigit = true ∨ c = '-' ∨ c = ' ' ∨ c = ':' := by
  unfold fmtTm at hc
  rcases List.mem_append.mp hc with h | h
  · left; exact pad4_digits _ c h
  · rcases List.mem_cons.mp h with rfl | h
    · right; left; rfl
    · rcases List.mem_append.mp h with h | h
      · left; exact pad2_digits _ c h
      · rcases List.mem_cons.mp h with rfl | h
        · right; left; rfl
        · rcases List.mem_append.mp h with h | h
          · left; exact pad2_digits _ c h
          · rcases List.mem_cons.mp h with rfl | h
            · right; right; left; rfl
            · rcases List.mem_append.mp h with h | h
              · left; exact pad2_digits _ c h
              · rcases List.mem_cons.mp h with rfl | h
                · right; right; right; rfl
                · left; exact pad2_digits _ c h

theorem fmtTm_charsOk (tm : Tm) :
    ∀ c ∈ fmtTm tm, c ≠ '\n' ∧ c ≠ '#' := by
  intro c hc
  rcases fmtTm_mem_class tm c hc with h | rfl | rfl | rfl
  · exact ⟨(digitLike_tame c h).1, (digitLike_tame c h).2.1⟩
  · exact ⟨by decide, by decide⟩
  · exact ⟨by decide, by decide⟩
  · exact ⟨by decide, by decide⟩

theorem fmtTm_dropBlank (tm : Tm) :
    (fmtTm tm).dropWhile isBlankCh = fmtTm tm := by
  rw [fmtTm_cons]
  refine dropWhile_cons_false isBlankCh _ _ ?_
  exact (digitLike_tame _ (digitChar_isDigit _ (Nat.mod_lt _ (by omega)))).2.2

theorem toStringAnsi_charsOk (C : Calendar) (t : Int) :
    ∀ c ∈ toStringAnsi C t, c ≠ '\n' ∧ c ≠ '#' := by
  intro c hc
  unfold toStringAnsi at hc
  by_cases ht : t = 0
  · rw [if_pos ht] at hc; simp at hc
  · rw [if_neg ht] at hc
    exact fmtTm_charsOk _ c hc

theorem toStringAnsi_dropBlank (C : Calendar) (t : Int) :
    (toStringAnsi C t).dropWhile isBlankCh = toStringAnsi C t := by
  unfold toStringAnsi
  by_cases ht : t = 0
  · rw [if_pos ht]; rfl
  · rw [if_neg ht]
    exact fmtTm_dropBlank _

theorem fmtTm_ne_false_no (tm : Tm) :
    fmtTm tm ≠ "false".data ∧ fmtTm tm ≠ "no".data := by
  have hd := digitChar_isDigit ((tm.year.toNat / 1000) % 10)
    (Nat.mod_lt _ (by omega))
  constructor <;>
    · intro he
      have hh := congrArg List.head? he
      rw [fmtTm_cons] at hh
      simp at hh
      rw [hh] at hd
      exact absurd hd (by decide)

/-! ### The serializer's field table -/

theorem goodText_nil : goodText [] :=
  ⟨by simp, by simp, rfl⟩

theorem goodText_toStringAnsi (C : Calendar) (t : Int) :
    goodText (toStringAnsi C t) := by
  refine ⟨?_, ?_, toStringAnsi_dropBlank C t⟩
  · intro hc
    exact (toStringAnsi_charsOk C t _ hc).1 rfl
  · intro hc
    exact (toStringAnsi_charsOk C t _ hc).2 rfl

theorem dropWhile_self_head_false (p : Char → Bool) (c : Char)
    (cs : List Char) (h : (c :: cs).dropWhile p = c :: cs) :
    p c = false := by
  cases hp : p c
  · rfl
  · have hstep : List.dropWhile p (c :: cs) = List.dropWhile p cs := by
      rw [List.dropWhile_cons, hp]
      simp
    rw [hstep] at h
    have hlen := length_dropWhile_le p cs
    rw [h] at hlen
    simp at hlen

theorem isBlankCh_false_of_isSpaceCh_false (c : Char)
    (h : isSpaceCh c = false) : isBlankCh c = false := by
  cases hb : isBlankCh c
  · rfl
  · simp only [isBlankCh, Bool.or_eq_true, decide_eq_true_eq] at hb
    rcases hb with rfl | rfl <;> exact absurd h (by decide)

theorem goodText_joinTags (tags : List (List Char))
    (h : ∀ t ∈ tags, goodTag t) : goodText (joinTags tags) := by
  refine ⟨?_, ?_, ?_⟩
  · intro hc
    rcases joinTags_chars tags _ hc with ⟨t, ht, hct⟩ | hc | hc
    · exact (h t ht).2.2.1 hct
    · exact absurd hc (by decide)
    · exact absurd hc (by decide)
  · intro hc
    rcases joinTags_chars tags _ hc with ⟨t, ht, hct⟩ | hc | hc
    · exact (h t ht).2.2.2.1 hct
    · exact absurd hc (by decide)
    · exact absurd hc (by decide)
  · cases tags with
    | nil => rfl
    | cons t ts =>
      refine dropWhile_eq_self_head isBlankCh _ ?_
      intro c hc
      have ht := h t (by simp)
      rw [joinTags_head t ts ht.1] at hc
      cases t with
      | nil => exact absurd rfl ht.1
      | cons c0 cs =>
        have hcc : c0 = c := by simpa using hc
        subst hcc
        have hsp : isSpaceCh c0 = false :=
          dropWhile_self_head_false isSpaceCh c0 cs ht.2.2.2.2
        exact isBlankCh_false_of_isSpaceCh_false c0 hsp

theorem headerFields_keys (C : Calendar) (m : HeaderRec) :
    (headerFields C m).map Prod.fst
      = ["uuid".data, "title".data, "abstract".data, "menu".data,
         "template".data, "type".data, "tags".data, "updated".data,
         "published".data, "expires".data, "banner".data] := rfl

theorem headerFields_nodupKeys (C : Calendar) (m : HeaderRec) :
    ((headerFields C m).map Prod.fst).Nodup := by
  rw [headerFields_keys]
  decide

theorem fields_keys_ne (C : Calendar) (m : HeaderRec) (key : List Char)
    (h : key ∉ (headerFields C m).map Prod.fst) :
    ∀ kv ∈ headerFields C m, kv.1 ≠ key := by
  intro kv hkv he
  exact h (he ▸ List.mem_map_of_mem Prod.fst hkv)

theorem fields_key_facts (C : Calendar) (m : HeaderRec) :
    ∀ kv ∈ headerFields C m, kv.1 ≠ [] ∧
      (∀ c ∈ kv.1, isKeyChar c = true) ∧
      (kv.1.head? == some '-') = false := by
  intro kv hkv
  simp only [headerFields, List.mem_cons, List.not_mem_nil, or_false] at hkv
  rcases hkv with rfl | rfl | rfl | rfl | rfl | rfl | rfl | rfl | rfl
    | rfl | rfl <;>
    refine ⟨?_, ?_, ?_⟩ <;> (dsimp only; decide)

theorem fields_val_good (C : Calendar) (m : HeaderRec)
    (hv : validHeaderRec C m) : ∀ kv ∈ headerFields C m, goodText kv.2 := by
  obtain ⟨_, h2, h3, _, h5, h6, h7, h8, h9, h10, _, _, _, _⟩ := hv
  intro kv hkv
  simp only [headerFields, List.mem_cons, List.not_mem_nil, or_false] at hkv
  rcases hkv with rfl | rfl | rfl | rfl | rfl | rfl | rfl | rfl | rfl
    | rfl | rfl
  · exact h2
  · cases hht : m.have_title
    · simpa using goodText_nil
    · simpa using h3
  · exact h5
  · exact h6
  · exact h7
  · exact h8
  · exact goodText_joinTags m.tags h10
  · cases hhu : m.have_updated
    · simpa using goodText_nil
    · simpa using goodText_toStringAnsi C m.updated
  · exact goodText_toStringAnsi C m.published
  · exact goodText_toStringAnsi C m.expires
  · exact h9

theorem isDelim_head_beq_false (l : List Char)
    (h : (l.head? == some '-') = false) : isDelim l = false := by
  unfold isDelim
  rw [h, Bool.and_false]

/-! ### Lookups of the serializer's fields -/

theorem lookup_fields_uuid (C : Calendar) (m : HeaderRec) :
    List.lookup "uuid".data (headerFields C m) = some m.uuid := rfl

theorem lookup_fields_title (C : Calendar) (m : HeaderRec) :
    List.lookup "title".data (headerFields C m)
      = some (if m.have_title then m.title else []) := rfl

theorem lookup_fields_tags (C : Calendar) (m : HeaderRec) :
    List.lookup "tags".data (headerFields C m)
      = some (joinTags m.tags) := rfl

theorem lookup_fields_updated (C : Calendar) (m : HeaderRec) :
    List.lookup "updated".data (headerFields C m)
      = some (if m.have_updated then toStringAnsi C m.updated else []) := rfl

theorem lookup_fields_published (C : Calendar) (m : HeaderRec) :
    List.lookup "published".data (headerFields C m)
      = some (toStringAnsi C m.published) := rfl

theorem lookup_fields_expires (C : Calendar) (m : HeaderRec) :
    List.lookup "expires".data (headerFields C m)
      = some (toStringAnsi C m.expires) := rfl

theorem getH_parsedMap_found (C : Calendar) (m : HeaderRec)
    (key v : List Char)
    (hlk : List.lookup key (headerFields C m) = some v)
    (hdrop : v.dropWhile isBlankCh = v) :
    getH key (parsedMap C m) = v := by
  unfold getH parsedMap
  rw [lookup_parsed_found key v (headerFields C m)
    (headerFields_nodupKeys C m) hlk]
  by_cases he : v.isEmpty = true
  · rw [if_pos he]
    have hnil : v = [] := by simpa [List.isEmpty_iff] using he
    rw [hnil]
    rfl
  · rw [if_neg he, hdrop]
    rfl

theorem getH_parsedMap_absent (C : Calendar) (m : HeaderRec)
    (key : List Char) (h : ∀ kv ∈ headerFields C m, kv.1 ≠ key) :
    getH key (parsedMap C m) = [] := by
  unfold getH parsedMap
  rw [lookup_parsed_absent key (headerFields C m) h]
  rfl

theorem pubTriple_toStringAnsi (C : Calendar) (t : Int) (h0 : 0 ≤ t)
    (hmax : t ≤ C.maxT) (hmod : t % 60 = 0) :
    ∃ hp : Bool, pubTriple C (toStringAnsi C t) = Except.ok (true, t, hp) := by
  by_cases ht : t = 0
  · subst ht
    exact ⟨false, rfl⟩
  · refine ⟨true, ?_⟩
    have h2 : toStringAnsi C t = fmtTm (C.epochToCivil t) := by
      unfold toStringAnsi
      rw [if_neg ht]
    have hne : (toStringAnsi C t).isEmpty = false := by
      rw [h2]
      exact fmtTm_ne_empty _
    have hg : getTime C (toStringAnsi C t) = Except.ok t :=
      getTime_toStringAnsi C t h0 hmax hmod
    have hfn : ¬ (toStringAnsi C t = "false".data
        ∨ toStringAnsi C t = "no".data) := by
      intro hcon
      rcases hcon with hc | hc
      · rw [h2] at hc
        exact (fmtTm_ne_false_no (C.epochToCivil t)).1 hc
      · rw [h2] at hc
        exact (fmtTm_ne_false_no (C.epochToCivil t)).2 hc
    unfold pubTriple
    rw [if_neg (by simp [hne]), if_neg hfn, hg]

/-- C5: header round-trip. For every calendar satisfying the libc
time-conversion laws, every fresh uuid and every valid header record,
serializing the header with the scanner's writer
(UpdateRequiredHeaders), re-extracting the delimited block with
FetchHeader and re-parsing it with HeaderParser::Parse succeeds and
yields the same uuid, title, tags and date fields (updated, published)
as the original record. -/
theorem header_roundtrip (C : Calendar) (fresh : List Char) (m : HeaderRec)
    (hv : validHeaderRec C m) :
    ∃ p : ParsedHeader, roundTrip C fresh m = Except.ok p ∧
      p.uuid = m.uuid ∧ p.title = m.title ∧ p.tags = m.tags ∧
      p.updated = m.updated ∧ p.published = m.published := by
  have hgood := fields_val_good C m hv
  obtain ⟨h1, h2, h3, h4, _, _, _, _, _, h10, h11, h12, h13, h14⟩ := hv
  have hline : ∀ l ∈ headerLines C m, isDelim l = false ∧ '\n' ∉ l := by
    intro l hl
    unfold headerLines at hl
    rcases List.mem_map.mp hl with ⟨kv, hkv, rfl⟩
    have hf := List.mem_filter.mp hkv
    obtain ⟨hk1, hk2, hk3⟩ := fields_key_facts C m kv hf.1
    have hg := hgood kv hf.1
    constructor
    · refine isDelim_head_beq_false _ ?_
      have hap : (kv.1 ++ ':' :: ' ' :: kv.2).head? = kv.1.head? := by
        cases hkv1 : kv.1 with
        | nil => exact absurd hkv1 hk1
        | cons a as => rfl
      rw [hap]
      exact hk3
    · intro hm
      rcases List.mem_append.mp hm with hm | hm
      · exact keyChar_ne_nl _ (hk2 _ hm) rfl
      · rcases List.mem_cons.mp hm with hm | hm
        · exact absurd hm (by decide)
        · rcases List.mem_cons.mp hm with hm | hm
          · exact absurd hm (by decide)
          · exact hg.1 hm
  have hnohash : ∀ c ∈ joinNl (headerLines C m), c ≠ '#' := by
    intro c hc
    rcases mem_joinNl (headerLines C m) c hc with h | ⟨l, hl, hcl⟩
    · rw [h]; decide
    · unfold headerLines at hl
      rcases List.mem_map.mp hl with ⟨kv, hkv, rfl⟩
      have hf := List.mem_filter.mp hkv
      obtain ⟨_, hk2, _⟩ := fields_key_facts C m kv hf.1
      have hg := hgood kv hf.1
      rcases List.mem_append.mp hcl with hm | hm
      · intro he
        rw [he] at hm
        exact absurd (hk2 _ hm) (by decide)
      · rcases List.mem_cons.mp hm with hm | hm
        · rw [hm]; decide
        · rcases List.mem_cons.mp hm with hm | hm
          · rw [hm]; decide
          · intro he
            rw [he] at hm
            exact hg.2.1 hm
  have hconds : ∀ kv ∈ (headerFields C m).filter (fun kv => ¬ kv.2.isEmpty),
      kv.1 ≠ [] ∧ (∀ c ∈ kv.1, isKeyChar c = true) ∧ ('\n' ∉ kv.2) ∧
      ¬ (kv.2.dropWhile isBlankCh).isEmpty = true := by
    intro kv hkv
    have hf := List.mem_filter.mp hkv
    obtain ⟨hk1, hk2, _⟩ := fields_key_facts C m kv hf.1
    have hg := hgood kv hf.1
    refine ⟨hk1, hk2, hg.1, ?_⟩
    rw [hg.2.2]
    exact of_decide_eq_true hf.2
  have hmuu : m.uuid.isEmpty = false := by
    cases hm : m.uuid.isEmpty
    · rfl
    · exact absurd (by simpa [List.isEmpty_iff] using hm) h1
  have e_uuid : getH "uuid".data (parsedMap C m) = m.uuid :=
    getH_parsedMap_found C m _ _ (lookup_fields_uuid C m) h2.2.2
  have e_title : getH "title".data (parsedMap C m) = m.title := by
    cases hht : m.have_title
    · have ht0 : m.title = [] := by
        rcases h4 with h | h
        · rw [hht] at h
          exact absurd h (by simp)
        · exact h
      rw [ht0]
      exact getH_parsedMap_found C m _ _
        (by rw [lookup_fields_title, hht]; rfl) rfl
    · exact getH_parsedMap_found C m _ _
        (by rw [lookup_fields_title, hht]; rfl) h3.2.2
  have e_tags : tagsOf (parsedMap C m) = Except.ok m.tags := by
    cases htg : m.tags with
    | nil =>
      have lkp : List.lookup "tags".data (parsedMap C m) = none := by
        unfold parsedMap
        rw [lookup_parsed_found "tags".data [] (headerFields C m)
          (headerFields_nodupKeys C m) (by rw [lookup_fields_tags, htg]; rfl)]
        rfl
      unfold tagsOf
      rw [lkp]
      rfl
    | cons t ts =>
      have htags' : ∀ x ∈ t :: ts, goodTag x := by
        rw [← htg]
        exact h10
      have hjh : (joinTags (t :: ts)).head? = t.head? :=
        joinTags_head t ts (htags' t (by simp)).1
      have hjne : (joinTags (t :: ts)).isEmpty = false := by
        cases hje : joinTags (t :: ts) with
        | nil =>
          rw [hje] at hjh
          cases ht' : t with
          | nil => exact absurd ht' (htags' t (by simp)).1
          | cons a as =>
            rw [ht'] at hjh
            simp at hjh
        | cons a as => rfl
      have hdropb : (joinTags (t :: ts)).dropWhile isBlankCh
          = joinTags (t :: ts) := (goodText_joinTags (t :: ts) htags').2.2
      have lkp : List.lookup "tags".data (parsedMap C m)
          = some (joinTags (t :: ts)) := by
        unfold parsedMap
        rw [lookup_parsed_found "tags".data (joinTags (t :: ts))
          (headerFields C m) (headerFields_nodupKeys C m)
          (by rw [lookup_fields_tags, htg])]
        rw [if_neg (by simp [hjne]), hdropb]
      have hpt : parseListTokens (joinTags (t :: ts)) = some (t :: ts) :=
        parseListTokens_joinTags (t :: ts) (by simp)
          (fun x hx => ⟨(htags' x hx).1, (htags' x hx).2.1,
            (htags' x hx).2.2.2.2⟩)
      unfold tagsOf
      rw [lkp]
      simp only [Option.map_some', Option.getD_some]
      rw [hpt]
      rfl
  have e_upd : getTime C (getH "updated".data (parsedMap C m))
      = Except.ok m.updated := by
    cases hhu : m.have_updated
    · have hu0 : m.updated = 0 := by
        rcases h11 with h | h
        · rw [hhu] at h
          exact absurd h (by simp)
        · exact h
      have hg : getH "updated".data (parsedMap C m) = [] :=
        getH_parsedMap_found C m _ _
          (by rw [lookup_fields_updated, hhu]; rfl) rfl
      rw [hg, hu0]
      rfl
    · have hg : getH "updated".data (parsedMap C m)
          = toStringAnsi C m.updated :=
        getH_parsedMap_found C m _ _
          (by rw [lookup_fields_updated, hhu]; rfl)
          (toStringAnsi_dropBlank C m.updated)
      rw [hg]
      exact getTime_toStringAnsi C m.updated h12.1 h12.2.1 h12.2.2
  have e_part : getH "part".data (parsedMap C m) = [] :=
    getH_parsedMap_absent C m _
      (fields_keys_ne C m _ (by rw [headerFields_keys]; decide))
  have e_pri : getH "sitemap-priority".data (parsedMap C m) = [] :=
    getH_parsedMap_absent C m _
      (fields_keys_ne C m _ (by rw [headerFields_keys]; decide))
  have e_pubv : getH "published".data (parsedMap C m)
      = toStringAnsi C m.published :=
    getH_parsedMap_found C m _ _ (lookup_fields_published C m)
      (toStringAnsi_dropBlank C m.published)
  obtain ⟨hp, e_pt⟩ :=
    pubTriple_toStringAnsi C m.published h13.1 h13.2.1 h13.2.2
  have e_expv : getH "expires".data (parsedMap C m)
      = toStringAnsi C m.expires :=
    getH_parsedMap_found C m _ _ (lookup_fields_expires C m)
      (toStringAnsi_dropBlank C m.expires)
  have e_exp : getTime C (toStringAnsi C m.expires) = Except.ok m.expires :=
    getTime_toStringAnsi C m.expires h14.1 h14.2.1 h14.2.2
  have hfetch := fetchHeader_serialized C m hline
  have hrc : removeComments (joinNl (headerLines C m))
      = joinNl (headerLines C m) := removeComments_id _ hnohash
  have hpb : parseHeaderBlock (joinNl (headerLines C m))
      = some (parsedMap C m) := by
    unfold headerLines parsedMap
    exact parseHeaderBlock_mk _ hconds
  refine ⟨{ uuid := m.uuid, title := m.title, tags := m.tags,
            updated := m.updated, is_published := true,
            published := m.published, have_published := hp,
            expires := m.expires, part := 0, sitemap_priority := -1 },
          ?_, rfl, rfl, rfl, rfl, rfl⟩
  unfold roundTrip
  rw [hfetch]
  show parseHeader C fresh (joinNl (headerLines C m)) = _
  unfold parseHeader
  rw [hrc, hpb]
  show assignHeader C fresh (parsedMap C m) = _
  unfold assignHeader
  rw [e_tags, e_upd, e_part, e_pri, e_uuid, hmuu, e_pubv, e_pt, e_expv,
    e_exp, e_title]
  rfl

/-- Witness for the round-trip at a concrete calendar and record. -/
theorem header_roundtrip_witness :
    validHeaderRec toyCal c5Rec ∧
    ∃ p : ParsedHeader, roundTrip toyCal "f0".data c5Rec = Except.ok p ∧
      p.uuid = c5Rec.uuid ∧ p.title = c5Rec.title ∧ p.tags = c5Rec.tags ∧
      p.updated = c5Rec.updated ∧ p.published = c5Rec.published :=
  ⟨by decide, header_roundtrip toyCal "f0".data c5Rec (by decide)⟩

end Stbl
